import Mathlib

/-!
Verification of the MEGA SDK client access engine (`src/megaclient.cpp`)
against its natural-language specification.

The development is a shallow embedding: each C++ function relevant to a
claim is translated into an executable Lean definition over explicit
state.  External capabilities (base64 codec, RSA/AES primitives, PBKDF2,
HMAC, fingerprints) are out of scope of the covered core, so they enter
the model as explicit function parameters; theorems assume only the
interface properties the code relies on, and witnesses instantiate them
with concrete functions.

Layout: all definitions first, then all theorems.
-/

namespace Mega

/-- MEGA API error codes (subset used by the modelled code paths). -/
def API_OK : Int := 0
def API_EINTERNAL : Int := -1
def API_EARGS : Int := -2
def API_EAGAIN : Int := -3
def API_ERATELIMIT : Int := -4
def API_EINCOMPLETE : Int := -13
def API_EKEY : Int := -14
def API_EBLOCKED : Int := -16
def API_ETEMPUNAVAIL : Int := -18
def API_ESSL : Int := -23

/-- `FILENODEKEYLENGTH`: length in bytes of a file node key.
Modelled from the spec: the constant lives in the headers (not under
`src/`); the spec fixes symmetric node keys at 32 bytes for files. -/
def FILENODEKEYLENGTH : Nat := 32

/-- `FOLDERNODEKEYLENGTH`: length in bytes of a folder node key.
Modelled from the spec: 16 bytes for folders. -/
def FOLDERNODEKEYLENGTH : Nat := 16

/-- A 48-bit node handle is undefined when it equals the `UNDEF`
sentinel; we model handles as `Option Nat`, `none` being `UNDEF`. -/
abbrev Handle := Option Nat

/-! ## C3 — `MegaClient::decryptkey` (megaclient.cpp:100-161)

`decryptkey` classifies the incoming base64 node-key blob by its encoded
length, measured up to the first `"` or `/` character.  Long blobs are
RSA-decrypted (queueing the handle for a symmetric rewrite); short blobs
are base64-decoded and AES-ECB-decrypted in place. -/

/-- External crypto/codec capabilities used by `decryptkey`, passed in
as functions.  `atob sk maxLen` decodes up to `maxLen` bytes of base64
from `sk` and returns the decoded bytes (possibly fewer than `maxLen`).
`rsaDecrypt buf tl` returns the decrypted key bytes, or `none` on
failure (corrupt/invalid RSA input).  `ecbDecrypt` is AES-ECB
decryption with the supplied symmetric cipher. -/
structure KeyCrypto where
  atob : List Char → Nat → List Nat
  rsaDecrypt : List Nat → Nat → Option (List Nat)
  ecbDecrypt : List Nat → List Nat

/-- Rewrite queues of the client touched by `decryptkey`. -/
structure RewriteQueues where
  sharekeyrewrite : List Nat
  nodekeyrewrite : List Nat
deriving DecidableEq, Repr

/-- Result of `decryptkey`: the boolean the C++ function returns, the
decrypted key bytes (contents of the `tk` buffer when it returns
`true`), and the rewrite queues after the call. -/
structure DecryptkeyResult where
  ok : Bool
  tk : List Nat
  queues : RewriteQueues
deriving DecidableEq, Repr

/-- The length of the key blob as measured by `decryptkey`'s scanning
loop: characters up to the first NUL, `"` or `/`. -/
def keyblobLen (sk : List Char) : Nat :=
  (sk.takeWhile (fun ch => ch ≠ '"' ∧ ch ≠ '/')).length

/-- `MegaClient::decryptkey(sk, tk, tl, sc, type, node)`.

* `sk` — the base64 blob (a quoted JSON string in the source; length is
  measured up to the first `"` or `/`);
* `tl` — the expected plaintext key length (`tk` buffer size);
* `keyType` — `type`: nonzero for share keys, zero for node keys;
* `node` — the node/share handle (`UNDEF` = `none`). -/
def decryptkey (c : KeyCrypto) (sk : List Char) (tl : Nat) (keyType : Int)
    (node : Handle) (q : RewriteQueues) : DecryptkeyResult :=
  let sl := keyblobLen sk
  if sl > 4 * FILENODEKEYLENGTH / 3 + 1 then
    -- RSA-encrypted key - decrypt and update on the server
    let sl2 := sl / 4 * 3 + 3
    if sl2 > 4096 then
      ⟨false, [], q⟩
    else
      let buf := c.atob sk sl2
      match c.rsaDecrypt buf tl with
      | none => ⟨false, [], q⟩   -- "Corrupt or invalid RSA node key"
      | some tk =>
        match node with
        | none => ⟨true, tk, q⟩
        | some h =>
          if keyType ≠ 0 then
            ⟨true, tk, { q with sharekeyrewrite := q.sharekeyrewrite ++ [h] }⟩
          else
            ⟨true, tk, { q with nodekeyrewrite := q.nodekeyrewrite ++ [h] }⟩
  else
    let tk := c.atob sk tl
    if tk.length ≠ tl then
      ⟨false, [], q⟩             -- "Corrupt or invalid symmetric node key"
    else
      ⟨true, c.ecbDecrypt tk, q⟩

/-- A concrete `KeyCrypto` instantiation used by witnesses. -/
def trivialKeyCrypto : KeyCrypto :=
  ⟨fun _ n => List.replicate n 0, fun _ _ => some [7], fun l => l⟩

/-! ## C8 — version-throttle fragment of `MegaClient::syncup`
(megaclient.cpp:14912-14973)

When a local file is about to be uploaded and its remote counterpart
(`ll->node`, the current version) exists, `syncup` walks the version
chain (`children.back()` links) counting versions created within
`RECENT_VERSION_INTERVAL_SECS`, and defers the upload when more than 10
recent versions exist. -/

/-- The version-counting loop of `syncup`: walk the chain starting at
the current version (list of `ctime`s, newest first, each element the
`children.back()` of the previous), stopping at the first version older
than `startInterval`. -/
def countRecentVersions (startInterval : Int) : List Int → Nat
  | [] => 0
  | c :: rest =>
    if c < startInterval then 0 else 1 + countRecentVersions startInterval rest

/-- The upload deferral, in seconds, computed by the throttle fragment
of `syncup` for a file whose current remote version has creation time
`ctime` and older chained versions `olderVersions` (their `ctime`s, in
chain order), at local time `now`, with recent-version window
`interval` (= `Sync::RECENT_VERSION_INTERVAL_SECS`).  Returns `0` when
the upload proceeds immediately. -/
def syncupThrottleDelaySecs (ctime : Int) (olderVersions : List Int)
    (now interval : Int) : Int :=
  let delay : Int :=
    if ctime > now + 30 then
      -- "Incorrect local time detected": no version rate control
      0
    else
      let recent := countRecentVersions (now - interval) (ctime :: olderVersions)
      if recent > 10 then ((7 * (recent / 10) * (recent - 10) : Nat) : Int) else 0
  if delay ≠ 0 then
    let next := ctime + delay
    if next > now then next - now else 0
  else 0

/-! ## C4 — outgoing-share deletion in `MegaClient::mergenewshare`
(megaclient.cpp:228-289)

When a queued `NewShare` carries `ACCESS_UNKNOWN` and no key, the share
was deleted.  For an outgoing share on an existing node the peer entry
is removed from `outshares` (or the pending entry from
`pendingshares`), emptied maps are deallocated, and when `remove_key`
is set and no outgoing or pending shares remain, foreign keys are
rewritten and the share key dropped. -/

/-- The fields of a `Node` touched by the outgoing-share deletion
branch.  `outshares`/`pendingshares` model the `share_map*` pointers:
`none` is a null pointer, `some m` a map whose keys are listed in `m`
(std::map keys, hence no duplicates).  The `changed` notification bits
and the `notifynode` side effect are not modelled. -/
structure SNode where
  outshares : Option (List Nat)
  pendingshares : Option (List Nat)
  sharekey : Option (List Nat)
deriving DecidableEq, Repr

/-- Result of the deletion branch: the node afterwards, and whether
`rewriteforeignkeys` was invoked. -/
structure MergeDelResult where
  node : SNode
  rewroteForeignKeys : Bool
deriving DecidableEq, Repr

/-- The `find`/`erase`/"drop empty map" block run by `mergenewshare`
on `n->outshares` (and, with the `found`/`pending` guard, on
`n->pendingshares`): erase the key if present, then deallocate the map
if it became empty. -/
def eraseShareEntry (m : List Nat) (k : Nat) : Option (List Nat) :=
  let m1 := if k ∈ m then m.erase k else m
  if m1.length = 0 then none else some m1

/-- The `found` flag of the outgoing-deletion branch: whether the peer
had an entry in `n->outshares`. -/
def mndFound (n : SNode) (peer : Nat) : Bool :=
  match n.outshares with
  | none => false
  | some m => if peer ∈ m then true else false

/-- `n->outshares` after the outgoing-deletion branch. -/
def mndOutshares (n : SNode) (peer : Nat) : Option (List Nat) :=
  match n.outshares with
  | none => none
  | some m => eraseShareEntry m peer

/-- `n->pendingshares` after the outgoing-deletion branch: the pending
entry is erased only when the peer was not found in `outshares` and
`s->pending` is set. -/
def mndPendingshares (n : SNode) (peer pending : Nat) : Option (List Nat) :=
  match n.pendingshares with
  | none => none
  | some pm =>
    if mndFound n peer = false ∧ pending ≠ 0 then eraseShareEntry pm pending
    else some pm

/-- The `s->access == ACCESS_UNKNOWN && !s->have_key`, `s->outgoing`
branch of `MegaClient::mergenewshare` for an existing node `n`:
`peer` is `s->peer`, `pending` is `s->pending` (`0` = undefined),
`removeKey` is `s->remove_key`.  Erase the outgoing (or pending) share
entry, then erase the sharekey if no outgoing shares (incl pending)
exist and `remove_key` is set. -/
def mergenewshareDeletedOutgoing (n : SNode) (peer pending : Nat)
    (removeKey : Bool) : MergeDelResult :=
  if removeKey = true ∧ mndOutshares n peer = none
      ∧ mndPendingshares n peer pending = none then
    ⟨⟨mndOutshares n peer, mndPendingshares n peer pending, none⟩, true⟩
  else
    ⟨⟨mndOutshares n peer, mndPendingshares n peer pending, n.sharekey⟩, false⟩

/-! ## C2 — self-originated action packets in `MegaClient::procsc`
(megaclient.cpp:4811-4831)

Inside the `a` array of the SC stream, each packet object starts with
its `a` (action) name; the `i` (originating-session) marker, when
present, immediately follows.  The packet is processed only if
`fetchingnodes` is set or the bytes at the parse position do *not*
spell `"i":"<sessionid>"`. -/

/-- The three `memcmp`s of `procsc` (negated): `true` iff the JSON text
at the parse position begins with `"i":"` followed by exactly the
client's `sessionid` and a closing quote. -/
def scSelfOriginated (sessionid rest : List Char) : Bool :=
  if rest.take 5 = ['"', 'i', '"', ':', '"']
      ∧ (rest.drop 5).take sessionid.length = sessionid
      ∧ (rest.drop (5 + sessionid.length)).take 1 = ['"']
  then true else false

/-- One packet step of `procsc`: apply the packet's mutation to the
client state `st` only if the guard
`fetchingnodes || memcmp(pos, "\"i\":\"", 5) || memcmp(pos+5, sessionid, …) || pos[5+…] != '"'`
passes.  The per-action mutation (`sc_updatenode`, `sc_newnodes`, …) is
abstracted as `apply`. -/
def procscPacketStep {α : Type} (apply : α → α) (fetchingnodes : Bool)
    (sessionid rest : List Char) (st : α) : α :=
  if fetchingnodes = true ∨ scSelfOriginated sessionid rest = false then
    apply st
  else
    st

/-! ## C5 — `MegaClient::trackKey` (megaclient.cpp:12846-12957)

`trackKey` records a contact's public key in the authring of the
corresponding type.  A fingerprint mismatch on a tracked key is fatal
(`EKEY`, `key_modified` callback, telemetry event 99451) for unsigned
key types; for signed key types the code defers to signature
verification instead. -/

/-- Trackable contact-key attribute types handled by `trackKey`
(`keyTypeToAuthringType` maps exactly these; other attribute types take
the `ATTR_UNKNOWN`/`API_EARGS` early exit, which we omit by
enumeration). -/
inductive KeyType
  | ed25519pub
  | cu25519pub
  | rsapub
deriving DecidableEq, Repr

/-- Authring attribute types (`ATTR_AUTHRING`, `ATTR_AUTHCU255`,
`ATTR_AUTHRSA`). -/
inductive AuthringType
  | authring
  | authCu255
  | authRsa
deriving DecidableEq, Repr

/-- `AuthRing::keyTypeToAuthringType`.  Modelled from the spec: the
helper lives outside `src/`; the spec pairs Ed25519 with
`ATTR_AUTHRING`, X25519 with `ATTR_AUTHCU255`, RSA with
`ATTR_AUTHRSA`. -/
def keyTypeToAuthringType : KeyType → AuthringType
  | .ed25519pub => .authring
  | .cu25519pub => .authCu255
  | .rsapub => .authRsa

/-- `AuthRing::isSignedKey`.  Modelled from the spec: X25519 and RSA
public keys carry an Ed25519 signature and are authenticated by
signature verification; Ed25519 keys are not themselves signed. -/
def AuthringType.isSignedKey : AuthringType → Bool
  | .authring => false
  | .authCu255 => true
  | .authRsa => true

/-- Authentication method recorded per tracked key
(`AUTH_METHOD_UNKNOWN/SEEN/FINGERPRINT/SIGNATURE`). -/
inductive AuthMethod
  | unknown
  | seen
  | fingerprint
  | signature
deriving DecidableEq, Repr

/-- An authring: the map `user → (fingerprint, method)`. -/
structure AuthRing where
  entries : List (Nat × (List Nat × AuthMethod))
deriving DecidableEq, Repr

/-- `AuthRing::isTracked`. -/
def AuthRing.isTracked (r : AuthRing) (uh : Nat) : Bool :=
  (r.entries.find? (fun p => p.1 == uh)).isSome

/-- `AuthRing::getFingerprint` (empty when untracked). -/
def AuthRing.getFingerprint (r : AuthRing) (uh : Nat) : List Nat :=
  ((r.entries.find? (fun p => p.1 == uh)).map (fun p => p.2.1)).getD []

/-- `AuthRing::getAuthMethod` (`AUTH_METHOD_UNKNOWN` when untracked). -/
def AuthRing.getAuthMethod (r : AuthRing) (uh : Nat) : AuthMethod :=
  ((r.entries.find? (fun p => p.1 == uh)).map (fun p => p.2.2)).getD .unknown

/-- `AuthRing::add`. -/
def AuthRing.add (r : AuthRing) (uh : Nat) (fp : List Nat) (m : AuthMethod) :
    AuthRing :=
  ⟨r.entries ++ [(uh, (fp, m))]⟩

/-- Assoc lookup in `mAuthRings` / `mAuthRingsTemp`. -/
def findRing (l : List (AuthringType × AuthRing)) (t : AuthringType) :
    Option AuthRing :=
  (l.find? (fun p => p.1 == t)).map (fun p => p.2)

/-- Observable side effects of a `trackKey` call. -/
structure TrackKeyEffects where
  keyModified : List (Nat × KeyType)   -- app->key_modified(uh, keyType) calls
  events : List Nat                    -- sendevent ids
  getuas : Nat                         -- getua requests queued
  putua : Bool                         -- authring attribute written
deriving DecidableEq, Repr

/-- Result of `trackKey`: the returned error, the authring object as
left by the call (`none` on the early-exit paths), and the effects. -/
structure TrackKeyResult where
  err : Int
  ring : Option AuthRing
  effects : TrackKeyEffects
deriving DecidableEq, Repr

/-- `MegaClient::trackKey(keyType, uh, pubKey)`.

* `fp` — the `AuthRing::fingerprint` capability;
* `users`/`me` — the client's user table (handles) and own handle;
* `ringsTemp`/`rings` — `mAuthRingsTemp` and `mAuthRings`. -/
def trackKey (fp : List Nat → List Nat) (users : List Nat) (me : Nat)
    (ringsTemp rings : List (AuthringType × AuthRing))
    (keyType : KeyType) (uh : Nat) (pubKey : List Nat) : TrackKeyResult :=
  if uh ∉ users then
    ⟨API_EARGS, none, ⟨[], [], 0, false⟩⟩     -- unknown user
  else
    let authringType := keyTypeToAuthringType keyType
    let lookup : Option (AuthRing × Bool) :=
      match findRing ringsTemp authringType with
      | some r => some (r, true)               -- modify the temporal authring
      | none =>
        match findRing rings authringType with
        | some r => some (r, false)            -- work on a copy
        | none => none
    match lookup with
    | none => ⟨API_ETEMPUNAVAIL, none, ⟨[], [], 0, false⟩⟩  -- authring not available
    | some (ring, temporal) =>
      let keyFingerprint := fp pubKey
      let keyTracked := ring.isTracked uh
      let fingerprintMatch :=
        keyTracked && (keyFingerprint == ring.getFingerprint uh)
      if keyTracked = true ∧ fingerprintMatch = false
          ∧ authringType.isSignedKey = false then
        -- fingerprint mismatch on an unsigned tracked key
        ⟨API_EKEY, some ring, ⟨[(uh, keyType)], [99451], 0, false⟩⟩
      else if authringType.isSignedKey = true
          ∧ (ring.getAuthMethod uh ≠ .signature ∨ fingerprintMatch = false) then
        -- load public signing key and key signature; verified in getua_result
        ⟨API_OK, some ring, ⟨[], [], 2, false⟩⟩
      else if authringType.isSignedKey = false ∧ keyTracked = false then
        -- add as seen; push the authring unless the temporal ring still
        -- misses some contact
        let ring1 := ring.add uh keyFingerprint .seen
        let finished :=
          temporal = false ∨ users.all (fun u => u == me || ring1.isTracked u)
        ⟨API_OK, some ring1, ⟨[], [], 0, finished⟩⟩
      else
        ⟨API_OK, some ring, ⟨[], [], 0, false⟩⟩

/-! ## C1 / C9 — the in-flight CS request handling in `MegaClient::exec`
(megaclient.cpp:1905-2160) and the `reqid` counter
(megaclient.cpp:1354-1358, 1967-1978, 2137-2138)

One CS request is in flight at a time (`pendingcs`).  On completion its
status/body/HTTP status decide between: processing the response array
(and bumping `reqid`), aborting the batch (`reqs.servererror`), or
backing off and re-queueing the batch (`reqs.requeuerequest`). -/

/-- Completed request statuses relevant to the dispatcher switch
(`REQ_READY`/`REQ_INFLIGHT` leave the request pending and are omitted). -/
inductive ReqStatus
  | success
  | failure
deriving DecidableEq, Repr

/-- The fields of the completed `pendingcs` request consulted by the
dispatcher. -/
structure CSResponse where
  status : ReqStatus
  body : List Char          -- pendingcs->in
  httpstatus : Nat
  sslcheckfailed : Bool
deriving DecidableEq, Repr

/-- `retryreason_t` values assigned in this code path. -/
inductive RetryReason
  | noReason        -- RETRY_NONE
  | apiLock         -- RETRY_API_LOCK
  | rateLimit       -- RETRY_RATE_LIMIT
  | serversBusy     -- RETRY_SERVERS_BUSY
  | connectivity    -- RETRY_CONNECTIVITY
  | unknownReason   -- RETRY_UNKNOWN
deriving DecidableEq, Repr

/-- What the dispatcher does with the pending command batch. -/
inductive CSOutcome
  | processed                      -- reqs.serverresponse: array demultiplexed
                                   -- to the per-command completions
  | aborted (e : Int)              -- reqs.servererror: error surfaced to
                                   -- every pending command, batch cleared
  | retry (reason : RetryReason)   -- btcs.backoff(); reqs.requeuerequest():
                                   -- batch re-sent on the next armed tick
deriving DecidableEq, Repr

/-- Client state consulted/updated here.  `reqid` is the `char` array
holding the request id; we model the characters by their byte values
(`'a' = 97 … 'z' = 122`, `'0' = 48 … '9' = 57`), which is what the C
increment loop arithmetics on. -/
structure CSState where
  reqid : List Nat
  retryessl : Bool
deriving DecidableEq, Repr

/-- `atoi` on the decimal prefix (digit accumulator). -/
def atoiNat : List Char → Nat → Nat
  | [], acc => acc
  | c :: rest, acc =>
    if c.isDigit then atoiNat rest (acc * 10 + (c.toNat - '0'.toNat)) else acc

/-- C `atoi` (no leading whitespace/plus in the server bodies). -/
def atoi : List Char → Int
  | '-' :: rest => - (atoiNat rest 0 : Int)
  | s => (atoiNat s 0 : Int)

/-- Parse a non-array error response body: `{"err":N}` or a scalar `N`;
an unparsable or zero value becomes `API_EINTERNAL`. -/
def parseServerError (body : List Char) : Int :=
  let e : Int :=
    if body ≠ [] then      -- json.storeobject succeeded
      if body.take 7 = ['\x7b', '"', 'e', 'r', 'r', '"', ':'] then
        atoi (body.drop 7)
      else
        atoi body
    else API_EINTERNAL
  if e = 0 then API_EINTERNAL else e

/-- The `reqid` increment loop (megaclient.cpp:1967-1978), written over
the reversed digit string (the C loop walks from the last array index
towards the first, carrying while the digit was `'z'` = 122; a carry
resets the digit to `'a'` = 97). -/
def bumpReqidRev : List Nat → List Nat
  | [] => []
  | c :: t =>
    if c < 122 then (c + 1) :: t
    else 97 :: bumpReqidRev t

/-- "increment unique request ID" on the `reqid` char array. -/
def bumpReqid (r : List Nat) : List Nat :=
  (bumpReqidRev r.reverse).reverse

/-- The value of `reqid` read as a fixed-width base-26 counter over
`'a'..'z'`, little-endian digit list. -/
def reqidValRev : List Nat → Nat
  | [] => 0
  | c :: t => (c - 97) + 26 * reqidValRev t

/-- The value of the `reqid` array (leftmost character most
significant). -/
def reqidValue (r : List Nat) : Nat :=
  reqidValRev r.reverse

/-- The spec's reading of the counter ("base-36, zero-padded"): the
successor of a base-36 digit in the order `0-9a-z` (`'9'` = 57 is
followed by `'a'` = 97).  Modelled from the spec for comparison with
the code's `bumpReqid`. -/
def specBase36SuccDigit (c : Nat) : Nat :=
  if c = 57 then 97 else c + 1

/-- Fixed-width base-36 increment (little-endian digits: `'z'` = 122
rolls over to `'0'` = 48 with a carry), per the spec's words. -/
def specBase36BumpRev : List Nat → List Nat
  | [] => []
  | c :: t =>
    if c = 122 then 48 :: specBase36BumpRev t
    else specBase36SuccDigit c :: t

/-- Fixed-width base-36 increment of the digit string, per the spec's
words. -/
def specBase36Bump (r : List Nat) : List Nat :=
  (specBase36BumpRev r.reverse).reverse

/-- The shared `REQ_FAILURE` tail (megaclient.cpp:2051-2111): compute
the retry reason from the HTTP status, honour an SSL pin-check failure
(abort with `API_ESSL` unless `retryessl`), else back off and re-queue
the batch. -/
def csFailurePath (st : CSState) (resp : CSResponse) (reason0 : RetryReason) :
    CSOutcome × CSState :=
  let reason :=
    if reason0 = .noReason ∧ resp.httpstatus ≠ 200 then
      if resp.httpstatus = 500 then .serversBusy
      else if resp.httpstatus = 0 then .connectivity
      else .unknownReason
    else reason0
  if resp.sslcheckfailed = true ∧ st.retryessl = false then
    (.aborted API_ESSL, st)
  else
    (.retry reason, st)

/-- The `REQ_SUCCESS`/`REQ_FAILURE` switch on the completed CS request
(megaclient.cpp:1905-2114). -/
def csHandleResponse (st : CSState) (resp : CSResponse) : CSOutcome × CSState :=
  match resp.status with
  | .success =>
    if resp.body ≠ ['-', '3'] ∧ resp.body ≠ ['-', '4'] then
      if resp.body.head? = some '[' then
        -- request succeeded, process result array; increment unique request ID
        (.processed, { st with reqid := bumpReqid st.reqid })
      else
        -- request failed: surface the parsed error to the whole batch
        (.aborted (parseServerError resp.body), st)
    else
      -- "-3" → RETRY_API_LOCK, "-4" → RETRY_RATE_LIMIT; fall through
      csFailurePath st resp
        (if resp.body = ['-', '3'] then .apiLock else .rateLimit)
  | .failure => csFailurePath st resp .noReason

/-! ## C6 — `MegaClient::dispatchTransfers` (megaclient.cpp:3649-4200)
and `MegaClient::slotavail` (megaclient.cpp:5433-5436)

The dispatcher counts the existing transfer slots per direction and per
(direction, size-category), filters the queued transfers through
`continueDirection`/`testAddTransferFunction` (which enforce the
per-direction caps), and then starts the chosen transfers while
`slotavail()` holds. -/

/-- `MAXTRANSFERS`: maximum number of concurrent transfers (uploads or
downloads): `const unsigned MegaClient::MAXTRANSFERS = 32`
(megaclient.cpp:65). -/
def MAXTRANSFERS : Nat := 32

/-- `MAXTOTALTRANSFERS`: maximum number of concurrent transfers
(uploads + downloads): `const unsigned MegaClient::MAXTOTALTRANSFERS
= 48` (megaclient.cpp:62). -/
def MAXTOTALTRANSFERS : Nat := 48

/-- `MAXQUEUEDFA`: maximum number of queued `putfa` before halting the
upload queue: `const int MegaClient::MAXQUEUEDFA = 30`
(megaclient.cpp:68). -/
def MAXQUEUEDFA : Nat := 30

/-- Transfer direction (`PUT`/`GET`). -/
inductive Direction
  | put
  | get
deriving DecidableEq, Repr

/-- The fields of a `Transfer` consulted by the dispatcher.
`progressed` is the slot's `progressreported` for running transfers
(`0` for queued ones). -/
structure Transfer where
  dir : Direction
  size : Int
  progressed : Int
deriving DecidableEq, Repr

/-- `TransferCategory::directionIndex()`: indices 0..1 hold the
per-direction counters. -/
def dirIndex : Direction → Nat
  | .put => 0
  | .get => 1

/-- Whether the transfer falls in the large-file category.  Modelled
from the spec: `TransferCategory` lives outside `src/`; the spec puts
the big/small boundary at 100 MiB. -/
def isLargeTransfer (t : Transfer) : Bool :=
  t.size > 100 * 1024 * 1024

/-- `TransferCategory::index()`: indices 2..5 hold the
(direction, size-category) counters. -/
def catIndex (t : Transfer) : Nat :=
  2 + 2 * dirIndex t.dir + (if isLargeTransfer t then 0 else 1)

/-- The local `struct counter` of `dispatchTransfers`. -/
structure DtCounter where
  remainingsum : Int
  total : Nat
  added : Nat
  hasVeryBig : Bool
deriving DecidableEq, Repr

/-- `counter::addexisting(size, progressed)`. -/
def DtCounter.addexisting (c : DtCounter) (size progressed : Int) : DtCounter :=
  { remainingsum := c.remainingsum + (size - progressed),
    total := c.total + 1,
    added := c.added,
    hasVeryBig :=
      if size > 100 * 1024 * 1024 ∧ size - progressed > 5 * 1024 * 1024 then true
      else c.hasVeryBig }

/-- `counter::addnew(size)`. -/
def DtCounter.addnew (c : DtCounter) (size : Int) : DtCounter :=
  { c.addexisting size 0 with added := c.added + 1 }

/-- The `std::array<counter, 6>` of `dispatchTransfers`, as a function
from index to counter. -/
def DtCounters := Nat → DtCounter

/-- Pointwise update of one counter. -/
def updateAt (cs : DtCounters) (i : Nat) (f : DtCounter → DtCounter) :
    DtCounters :=
  fun j => if j = i then f (cs j) else cs j

/-- The all-zero initial array. -/
def countersZero : DtCounters :=
  fun _ => ⟨0, 0, 0, false⟩

/-- The first loop of `dispatchTransfers`: fold the existing slots into
the per-category and per-direction counters. -/
def countersInit : List Transfer → DtCounters → DtCounters
  | [], cs => cs
  | t :: rest, cs =>
    countersInit rest
      (updateAt (updateAt cs (catIndex t) (fun c => c.addexisting t.size t.progressed))
        (dirIndex t.dir) (fun c => c.addexisting t.size t.progressed))

/-- The `continueDirection` lambda: stop a direction once its slot
total reaches `MAXTRANSFERS` or once `MAXTRANSFERS/2` new transfers
were added this tick. -/
def continueDirection (cs : DtCounters) (putget : Direction) : Bool :=
  if (cs (dirIndex putget)).total ≥ MAXTRANSFERS then false
  else if (cs (dirIndex putget)).added ≥ MAXTRANSFERS / 2 then false
  else true

/-- The `testAddTransferFunction` lambda: reject when one very big
transfer dominates the category or the category already holds 30
seconds of work; otherwise count the transfer in. -/
def testAddTransfer (speed : Direction → Int) (cs : DtCounters) (t : Transfer) :
    Bool × DtCounters :=
  if (cs (catIndex t)).hasVeryBig then (false, cs)
  else
    let targetOutstanding := 30 * speed t.dir
    let targetOutstanding := max targetOutstanding (2 * 1024 * 1024)
    let targetOutstanding := min targetOutstanding (100 * 1024 * 1024)
    if (cs (catIndex t)).remainingsum ≥ targetOutstanding then (false, cs)
    else
      (true,
        updateAt (updateAt cs (catIndex t) (fun c => c.addnew t.size))
          (dirIndex t.dir) (fun c => c.addnew t.size))

/-- One category pass of `TransferList::nexttransfers`.  Modelled from
the spec: `nexttransfers` lives outside `src/`; per its contract it
walks the queued transfers of a category in priority order, consults
`continueDirection` before each candidate (stopping the direction when
it fails) and selects a candidate when `testAddTransferFunction`
accepts it, threading the counters. -/
def nexttransfersCat (speed : Direction → Int) (cs : DtCounters) :
    List Transfer → DtCounters × List Transfer
  | [] => (cs, [])
  | t :: rest =>
    if continueDirection cs t.dir then
      match testAddTransfer speed cs t with
      | (true, cs1) =>
        let r := nexttransfersCat speed cs1 rest
        (r.1, t :: r.2)
      | (false, cs1) =>
        let r := nexttransfersCat speed cs1 rest
        (r.1, r.2)
    else (cs, [])

/-- All four category passes, in the `categoryOrder` of
`dispatchTransfers` — `(PUT, LARGE), (GET, LARGE), (PUT, SMALL),
(GET, SMALL)` — threading the counters. -/
def nexttransfersAll (speed : Direction → Int) :
    DtCounters → List (List Transfer) → DtCounters × List (List Transfer)
  | cs, [] => (cs, [])
  | cs, cat :: cats =>
    let r := nexttransfersCat speed cs cat
    let rs := nexttransfersAll speed r.1 cats
    (rs.1, r.2 :: rs.2)

/-- `MegaClient::slotavail()`: `!mBlocked && tslots.size() <
MAXTOTALTRANSFERS`. -/
def slotavail (blocked : Bool) (tslots : List Transfer) : Bool :=
  ¬ blocked = true ∧ tslots.length < MAXTOTALTRANSFERS

/-- The start loop of `dispatchTransfers` over one category's selected
transfers: stop everything when no slot is available (`return`), skip
the rest of a PUT category when the file-attribute queue is jammed
(`break`), and otherwise start the transfer — the slot is inserted
into `tslots` only when the local file open succeeds (`opens`).
Returns the slot list and whether the `return` was taken. -/
def dispatchStartCat (blocked : Bool) (queuedfaSize : Nat)
    (opens : Transfer → Bool) :
    List Transfer → List Transfer → List Transfer × Bool
  | [], tslots => (tslots, false)
  | t :: rest, tslots =>
    if slotavail blocked tslots = false then (tslots, true)
    else if t.dir = .put ∧ queuedfaSize > MAXQUEUEDFA then (tslots, false)
    else
      dispatchStartCat blocked queuedfaSize opens rest
        (if opens t then t :: tslots else tslots)

/-- The start loop over all four categories in order. -/
def dispatchStartAll (blocked : Bool) (queuedfaSize : Nat)
    (opens : Transfer → Bool) :
    List (List Transfer) → List Transfer → List Transfer
  | [], tslots => tslots
  | sel :: cats, tslots =>
    let r := dispatchStartCat blocked queuedfaSize opens sel tslots
    if r.2 then r.1
    else dispatchStartAll blocked queuedfaSize opens cats r.1

/-- `MegaClient::dispatchTransfers()`: bail out unless a slot is
available, count the existing slots, select candidates per category,
and start them. -/
def dispatchTransfers (blocked : Bool) (tslots : List Transfer)
    (queuedfaSize : Nat) (speed : Direction → Int)
    (candidates : List (List Transfer)) (opens : Transfer → Bool) :
    List Transfer :=
  if slotavail blocked tslots = false then tslots
  else
    let cs := countersInit tslots countersZero
    let sel := nexttransfersAll speed cs candidates
    dispatchStartAll blocked queuedfaSize opens sel.2 tslots

/-- Number of slots of a direction in a slot list. -/
def countDir (l : List Transfer) (d : Direction) : Nat :=
  (l.filter (fun t => t.dir == d)).length

/-- Total per-direction count over a list of per-category selections. -/
def countDirs : List (List Transfer) → Direction → Nat
  | [], _ => 0
  | l :: ls, d => countDir l d + countDirs ls d

/-! ## C7 / C10 — password-protected links:
`MegaClient::encryptlink` (megaclient.cpp:11660-11744),
`MegaClient::decryptlink` (megaclient.cpp:11545-11658),
`MegaClient::parsepubliclink` (megaclient.cpp:9341-9409),
`MegaClient::publicLinkURL` (megaclient.cpp:1441-1467)

Strings are `List Char`; raw byte buffers are `List Nat`.  The base64
codec, PBKDF2 and HMAC-SHA256 are capabilities (`LinkCrypto`); the
PRNG salt and the uninitialized tail of `decryptlink`'s `key` stack
buffer are explicit parameters. -/

/-- `MegaClient::MEGAURL` (`"https://mega.nz"`). -/
def MEGAURL : List Char :=
  ['h', 't', 't', 'p', 's', ':', '/', '/', 'm', 'e', 'g', 'a', '.', 'n', 'z']

/-- `MegaClient::NODEHANDLE`: bytes of a node/public handle on the
wire. -/
def NODEHANDLE : Nat := 6

/-- Crypto/codec capabilities used by the link functions.
`atob s max` decodes at most `max` bytes of base64 from `s`;
`btoa` encodes bytes to (unpadded, URL-safe) base64;
`pbkdf2 pwd salt` is PBKDF2-HMAC-SHA512 with 100000 iterations
producing 64 bytes; `hmacSha256 key data` produces 32 bytes. -/
structure LinkCrypto where
  btoa : List Nat → List Char
  atob : List Char → Nat → List Nat
  pbkdf2 : List Char → List Nat → List Nat
  hmacSha256 : List Nat → List Nat → List Nat

/-- C `strstr`: the first suffix of `s` beginning with `pat` (`none`
when absent). -/
def strstr (pat : List Char) : List Char → Option (List Char)
  | [] => if pat.isPrefixOf ([] : List Char) then some [] else none
  | c :: t =>
    if pat.isPrefixOf (c :: t) then some (c :: t) else strstr pat t

/-- `MegaClient::publicLinkURL(newLinkFormat, type, ph, key)`.  `ph`
is the handle's 6 wire bytes (`Base64Str<NODEHANDLE>` encodes exactly
those); `key` is the already-encoded key string (the `key` pointer is
never null at the call sites modelled). -/
def publicLinkURL (c : LinkCrypto) (newLinkFormat : Bool) (isFolder : Bool)
    (ph : List Nat) (key : List Char) : List Char :=
  MEGAURL ++ ['/']
    ++ (if newLinkFormat then
          (if isFolder then ['f', 'o', 'l', 'd', 'e', 'r', '/']
           else ['f', 'i', 'l', 'e', '/'])
        else
          (if isFolder then ['#', 'F', '!'] else ['#', '!']))
    ++ c.btoa ph
    ++ (if newLinkFormat then ['#'] else [])
    ++ (if newLinkFormat then [] else ['!'])
    ++ key

/-- `MegaClient::parsepubliclink(link, ph, key, isFolderLink)`:
returns the handle bytes and the decoded key on success. -/
def parsepubliclink (c : LinkCrypto) (link : List Char) (isFolderLink : Bool) :
    Except Int (List Nat × List Nat) :=
  let start : List Char × Bool :=
    match strstr ['#', 'F', '!'] link with
    | some r => (r.drop 3, true)
    | none =>
      match strstr ['f', 'o', 'l', 'd', 'e', 'r', '/'] link with
      | some r => (r.drop 7, true)
      | none =>
        match strstr ['#', '!'] link with
        | some r => (r.drop 2, false)
        | none =>
          match strstr ['f', 'i', 'l', 'e', '/'] link with
          | some r => (r.drop 5, false)
          | none => (link, false)    -- legacy file link format without '#'
  if start.2 ≠ isFolderLink then .error API_EARGS     -- type of link mismatch
  else if start.1.length < 8 then .error API_EARGS    -- no public handle
  else
    let ph := c.atob start.1 NODEHANDLE
    if ph.length = NODEHANDLE then
      -- skip any tracking parameter introduced by third-party websites
      let rest := (start.1.drop 8).dropWhile (fun ch => ch ≠ '!' ∧ ch ≠ '#')
      match rest with
      | [] => .error API_EINCOMPLETE                  -- no key provided
      | _ :: k =>
        if k.length = 0 then .error API_EINCOMPLETE   -- separator then NUL
        else
          let keylen := if isFolderLink then FOLDERNODEKEYLENGTH else FILENODEKEYLENGTH
          let key := c.atob k keylen
          if key.length = keylen then .ok (ph, key)
          else .error API_EARGS
    else .error API_EARGS

/-- `MegaClient::encryptlink(link, pwd, encryptedLink)` with the
`algorithm` local lifted to a parameter — the source fixes it to `2`
but keeps both HMAC branches (megaclient.cpp:11695, 11707-11723).
`salt` is the 32 bytes drawn from the PRNG.  An empty `pwd`/`link`
stands for the null-pointer guard. -/
def encryptlinkWithAlg (c : LinkCrypto) (algorithm : Nat)
    (link pwd : List Char) (salt : List Nat) : Except Int (List Char) :=
  if pwd = [] ∨ link = [] then .error API_EARGS
  else
    let isFolder := (strstr ['#', 'F', '!'] link).isSome
      || (strstr ['f', 'o', 'l', 'd', 'e', 'r', '/'] link).isSome
    let linkKeySize := if isFolder then FOLDERNODEKEYLENGTH else FILENODEKEYLENGTH
    match parsepubliclink c link isFolder with
    | .error e => .error e
    | .ok (ph, linkKey) =>
      -- Derive MAC key with salt+pwd
      let derivedKey := c.pbkdf2 pwd salt
      -- Prepare encryption key
      let encKey := List.zipWith (fun a b => Nat.xor a b)
        (derivedKey.take linkKeySize) linkKey
      -- Prepare payload to derive encryption key
      let ftype : Nat := if isFolder then 0 else 1
      let payload := [algorithm, ftype] ++ ph ++ salt ++ encKey
      -- Prepare HMAC
      if algorithm = 1 then
        let hmac := c.hmacSha256 payload ((derivedKey.drop 32).take 32)
        .ok (MEGAURL ++ ['/', '#', 'P', '!']
          ++ c.btoa ([algorithm, ftype] ++ ph ++ salt ++ encKey ++ hmac))
      else if algorithm = 2 then
        -- fix legacy Webclient bug: swap data and key
        let hmac := c.hmacSha256 ((derivedKey.drop 32).take 32) payload
        .ok (MEGAURL ++ ['/', '#', 'P', '!']
          ++ c.btoa ([algorithm, ftype] ++ ph ++ salt ++ encKey ++ hmac))
      else .error API_EINTERNAL

/-- `MegaClient::encryptlink`: the source hardcodes `algorithm = 2`. -/
def encryptlink (c : LinkCrypto) (link pwd : List Char) (salt : List Nat) :
    Except Int (List Char) :=
  encryptlinkWithAlg c 2 link pwd salt

/-- `MegaClient::decryptlink(link, pwd, decryptedLink)`.
`newLinkFormat` is the client's `mNewLinkFormat`; `junk` is the
uninitialized remainder of the `byte key[FILENODEKEYLENGTH]` stack
buffer, which `Base64Str<FILENODEKEYLENGTH>` also serializes when the
link is a folder link. -/
def decryptlink (c : LinkCrypto) (newLinkFormat : Bool)
    (link pwd : List Char) (junk : List Nat) : Except Int (List Char) :=
  if pwd = [] ∨ link = [] then .error API_EARGS
  else
    match strstr ['#', 'P', '!'] link with
    | none => .error API_EARGS        -- not password protected
    | some r =>
      let ptr := r.drop 3
      -- decode the link (maximum size in binary: file links)
      let linkBin := c.atob ptr (1 + 1 + 6 + 32 + 32 + 32)
      if linkBin.length ≤ 2 then .error API_EINCOMPLETE   -- too short
      else
        match linkBin with
        | [] => .error API_EINCOMPLETE
        | [_] => .error API_EINCOMPLETE
        | algorithm :: ftype :: body =>
          if algorithm ≠ 1 ∧ algorithm ≠ 2 then .error API_EINTERNAL
          else
            -- int isFolder = !(*ptr++)
            let isFolder : Nat := if ftype = 0 then 1 else 0
            if isFolder > 1 then .error API_EARGS
              -- "link doesn't reference any folder or file" (unreachable)
            else
              let encKeyLen := if isFolder = 1 then FOLDERNODEKEYLENGTH
                else FILENODEKEYLENGTH
              if linkBin.length < 2 + 6 + 32 + encKeyLen + 32 then
                .error API_EINCOMPLETE                     -- too short
              else
                let ph := body.take 6
                let salt := (body.drop 6).take 32
                let encKey := (body.drop 38).take encKeyLen
                let hmac := (body.drop (38 + encKeyLen)).take 32
                -- Derive MAC key with salt+pwd
                let derivedKey := c.pbkdf2 pwd salt
                let hmacComputed :=
                  if algorithm = 1 then
                    c.hmacSha256 (linkBin.take (40 + encKeyLen))
                      ((derivedKey.drop 32).take 32)
                  else
                    -- algorithm == 2 (fix legacy Webclient bug)
                    c.hmacSha256 ((derivedKey.drop 32).take 32)
                      (linkBin.take (40 + encKeyLen))
                if hmac ≠ hmacComputed then .error API_EKEY
                else
                  -- Decrypt encKey by XOR with derivedKey; the stack
                  -- buffer holds FILENODEKEYLENGTH bytes of which only
                  -- encKeyLen are written
                  let key := List.zipWith (fun a b => Nat.xor a b)
                    encKey (derivedKey.take encKeyLen)
                  let keyBuf := key ++ junk.take (FILENODEKEYLENGTH - encKeyLen)
                  .ok (publicLinkURL c newLinkFormat (isFolder = 1) ph
                    (c.btoa keyBuf))

/-- A concrete `LinkCrypto` used by witnesses and counterexamples:
bytes are shifted into a private character range, PBKDF2/HMAC are
constant. -/
def concreteLinkCrypto : LinkCrypto where
  btoa := fun b => b.map (fun n => Char.ofNat (1000 + n))
    ++ List.replicate ((4 * b.length + 2) / 3 - b.length) (Char.ofNat 999)
  atob := fun s max =>
    ((s.takeWhile (fun ch => 1000 ≤ ch.toNat)).take max).map
      (fun ch => ch.toNat - 1000)
  pbkdf2 := fun _ _ => List.replicate 64 0
  hmacSha256 := fun _ _ => List.replicate 32 0

-- ===================================================================
-- THEOREMS
-- ===================================================================

/-- C3: `decryptkey` classifies a node-key blob by its encoded length:
blobs longer than `4*32/3 + 1` base64 characters are RSA-decrypted and,
when a node handle is supplied, the handle is appended exactly once to
`sharekeyrewrite` (share keys, `type ≠ 0`) or `nodekeyrewrite` (node
keys, `type = 0`); blobs at or below the threshold are base64-decoded
and AES-ECB-decrypted in place; any decode or decrypt failure returns
`false` and leaves the queues untouched. -/
theorem C3_decryptkey_length_classification (c : KeyCrypto) (sk : List Char)
    (tl : Nat) (keyType : Int) (h : Nat) (node : Handle) (q : RewriteQueues) :
    ((keyblobLen sk > 4 * FILENODEKEYLENGTH / 3 + 1) →
      (∀ tk, keyblobLen sk / 4 * 3 + 3 ≤ 4096 →
        c.rsaDecrypt (c.atob sk (keyblobLen sk / 4 * 3 + 3)) tl = some tk →
          (decryptkey c sk tl keyType (some h) q).ok = true ∧
          (decryptkey c sk tl keyType (some h) q).tk = tk ∧
          (keyType ≠ 0 →
            (decryptkey c sk tl keyType (some h) q).queues.sharekeyrewrite
              = q.sharekeyrewrite ++ [h] ∧
            (decryptkey c sk tl keyType (some h) q).queues.nodekeyrewrite
              = q.nodekeyrewrite) ∧
          (keyType = 0 →
            (decryptkey c sk tl keyType (some h) q).queues.nodekeyrewrite
              = q.nodekeyrewrite ++ [h] ∧
            (decryptkey c sk tl keyType (some h) q).queues.sharekeyrewrite
              = q.sharekeyrewrite)) ∧
      (c.rsaDecrypt (c.atob sk (keyblobLen sk / 4 * 3 + 3)) tl = none →
        decryptkey c sk tl keyType node q = ⟨false, [], q⟩)) ∧
    ((keyblobLen sk ≤ 4 * FILENODEKEYLENGTH / 3 + 1) →
      ((c.atob sk tl).length = tl →
        decryptkey c sk tl keyType node q = ⟨true, c.ecbDecrypt (c.atob sk tl), q⟩) ∧
      ((c.atob sk tl).length ≠ tl →
        decryptkey c sk tl keyType node q = ⟨false, [], q⟩)) := by
  constructor
  · intro hlong
    have h4096ne : ∀ p : Prop, keyblobLen sk / 4 * 3 + 3 ≤ 4096 → p = (keyblobLen sk / 4 * 3 + 3 > 4096) → ¬ p := by
      intro p hle hp
      subst hp
      omega
    constructor
    · intro tk hsz hdec
      simp only [decryptkey]
      rw [if_pos hlong, if_neg (h4096ne _ hsz rfl), hdec]
      by_cases hk : keyType = 0 <;> simp [hk]
    · intro hdec
      simp only [decryptkey]
      rw [if_pos hlong]
      by_cases hsz : keyblobLen sk / 4 * 3 + 3 > 4096
      · rw [if_pos hsz]
      · rw [if_neg hsz, hdec]
  · intro hshort
    have hno : ¬ (keyblobLen sk > 4 * FILENODEKEYLENGTH / 3 + 1) := by omega
    constructor
    · intro hlen
      simp only [decryptkey]
      rw [if_neg hno, if_neg (fun hne => hne hlen)]
    · intro hlen
      simp only [decryptkey]
      rw [if_neg hno, if_pos hlen]

/-- Witness for `C3_decryptkey_length_classification` at a concrete
44-character RSA-style blob and a concrete 4-character symmetric blob. -/
theorem C3_decryptkey_length_classification_witness :
    ((decryptkey trivialKeyCrypto (List.replicate 44 'A') 32 1 (some 5)
        ⟨[], []⟩).queues.sharekeyrewrite = [5]) ∧
    (decryptkey trivialKeyCrypto (List.replicate 4 'A') 4 1 (some 5)
        ⟨[], []⟩).ok = true := by
  have h1 := C3_decryptkey_length_classification trivialKeyCrypto
      (List.replicate 44 'A') 32 1 5 (some 5) ⟨[], []⟩
  have h2 := C3_decryptkey_length_classification trivialKeyCrypto
      (List.replicate 4 'A') 4 1 5 (some 5) ⟨[], []⟩
  refine ⟨(((h1.1 (by decide)).1 [7] (by decide) rfl).2.2.1 (by decide)).1, ?_⟩
  have h3 := (h2.2 (by decide)).1 (by decide)
  rw [h3]

/-- C8: for a version chain with `v` recent versions (within the
recent-version window) and local clock drift under 30 seconds, the
next upload is deferred by exactly
`max 0 ((prev_ctime + 7*(v/10)*(v-10)) - now)` seconds when `v > 10`
(with integer division in `v/10`), and not deferred at all when
`v ≤ 10`. -/
theorem C8_syncup_version_throttle (ctime : Int) (olderVersions : List Int)
    (now interval : Int) (hdrift : ctime ≤ now + 30) :
    ((countRecentVersions (now - interval) (ctime :: olderVersions) > 10) →
      syncupThrottleDelaySecs ctime olderVersions now interval
        = max 0 (ctime
            + ((7 * (countRecentVersions (now - interval) (ctime :: olderVersions) / 10)
                * (countRecentVersions (now - interval) (ctime :: olderVersions) - 10) : Nat) : Int)
            - now)) ∧
    ((countRecentVersions (now - interval) (ctime :: olderVersions) ≤ 10) →
      syncupThrottleDelaySecs ctime olderVersions now interval = 0) := by
  have hdrift2 : ¬ (ctime > now + 30) := by omega
  constructor
  · intro hv
    have hpos : 7 * (countRecentVersions (now - interval) (ctime :: olderVersions) / 10)
        * (countRecentVersions (now - interval) (ctime :: olderVersions) - 10) ≠ 0 := by
      apply Nat.mul_ne_zero
      · apply Nat.mul_ne_zero (by omega)
        have : 1 ≤ countRecentVersions (now - interval) (ctime :: olderVersions) / 10 :=
          (Nat.one_le_div_iff (by omega)).mpr (by omega)
        omega
      · omega
    simp only [syncupThrottleDelaySecs]
    rw [if_neg hdrift2, if_pos hv]
    rw [if_pos (by exact_mod_cast hpos)]
    split <;> omega
  · intro hv
    have hno : ¬ (countRecentVersions (now - interval) (ctime :: olderVersions) > 10) := by
      omega
    simp only [syncupThrottleDelaySecs]
    rw [if_neg hdrift2, if_neg hno]
    simp

/-- Witness for `C8_syncup_version_throttle`: 12 versions all created
"now" yield a 14-second deferral; 3 versions yield none. -/
theorem C8_syncup_version_throttle_witness :
    syncupThrottleDelaySecs 100 (List.replicate 11 100) 100 3600 = 14 ∧
    syncupThrottleDelaySecs 100 (List.replicate 2 100) 100 3600 = 0 := by
  have h1 := C8_syncup_version_throttle 100 (List.replicate 11 100) 100 3600 (by omega)
  have h2 := C8_syncup_version_throttle 100 (List.replicate 2 100) 100 3600 (by omega)
  constructor
  · rw [h1.1 (by decide)]; decide
  · exact h2.2 (by decide)

/-- `eraseShareEntry` never leaves an empty map allocated. -/
theorem eraseShareEntry_ne_some_nil (m : List Nat) (k : Nat) :
    eraseShareEntry m k ≠ some [] := by
  by_cases hmem : k ∈ m <;>
    · simp only [eraseShareEntry, hmem, if_true, if_false, ite_true, ite_false]
      split
      · exact Option.noConfusion
      · next h =>
        intro hc
        simp only [Option.some.injEq] at hc
        rw [hc] at h
        exact h rfl

/-- After `eraseShareEntry`, the erased key is gone (map keys are
unique). -/
theorem eraseShareEntry_not_mem (m : List Nat) (k : Nat) (hm : m.Nodup) :
    ∀ l, eraseShareEntry m k = some l → k ∉ l := by
  intro l hl
  by_cases hmem : k ∈ m
  · simp only [eraseShareEntry, hmem, ite_true] at hl
    split at hl
    · exact Option.noConfusion hl
    · simp only [Option.some.injEq] at hl
      subst hl
      exact hm.not_mem_erase
  · simp only [eraseShareEntry, hmem, ite_false] at hl
    split at hl
    · exact Option.noConfusion hl
    · simp only [Option.some.injEq] at hl
      subst hl
      exact hmem

/-- C4: processing, for an existing node, a deleted outgoing share
(`ACCESS_UNKNOWN`, no key): the peer is removed from `outshares` (or
the pending entry from `pendingshares`), an emptied map is
deallocated, and foreign keys are rewritten followed by dropping the
node's share key exactly when `remove_key` is set and both maps are
then empty. -/
theorem C4_mergenewshare_outgoing_deletion (n : SNode) (peer pending : Nat)
    (removeKey : Bool)
    (hnodup : ∀ m, n.outshares = some m → m.Nodup)
    (hpnodup : ∀ pm, n.pendingshares = some pm → pm.Nodup)
    (hpempty : n.pendingshares ≠ some []) :
    (∀ m, (mergenewshareDeletedOutgoing n peer pending removeKey).node.outshares
        = some m → peer ∉ m) ∧
    (mergenewshareDeletedOutgoing n peer pending removeKey).node.outshares
        ≠ some [] ∧
    (mergenewshareDeletedOutgoing n peer pending removeKey).node.pendingshares
        ≠ some [] ∧
    ((∀ m, n.outshares = some m → peer ∉ m) → pending ≠ 0 →
      ∀ pm, (mergenewshareDeletedOutgoing n peer pending removeKey).node.pendingshares
        = some pm → pending ∉ pm) ∧
    ((mergenewshareDeletedOutgoing n peer pending removeKey).rewroteForeignKeys = true
      ↔ (removeKey = true ∧
        (mergenewshareDeletedOutgoing n peer pending removeKey).node.outshares = none ∧
        (mergenewshareDeletedOutgoing n peer pending removeKey).node.pendingshares = none)) ∧
    ((mergenewshareDeletedOutgoing n peer pending removeKey).rewroteForeignKeys = true →
      (mergenewshareDeletedOutgoing n peer pending removeKey).node.sharekey = none) ∧
    ((mergenewshareDeletedOutgoing n peer pending removeKey).rewroteForeignKeys = false →
      (mergenewshareDeletedOutgoing n peer pending removeKey).node.sharekey = n.sharekey) := by
  classical
  have hos1 : ∀ l, mndOutshares n peer = some l → peer ∉ l := by
    intro l hl
    cases ho : n.outshares with
    | none => simp [mndOutshares, ho] at hl
    | some m =>
      simp only [mndOutshares, ho] at hl
      exact eraseShareEntry_not_mem m peer (hnodup m ho) l hl
  have hos2 : mndOutshares n peer ≠ some [] := by
    cases ho : n.outshares with
    | none => simp [mndOutshares, ho]
    | some m =>
      simp only [mndOutshares, ho]
      exact eraseShareEntry_ne_some_nil m peer
  have hps2 : mndPendingshares n peer pending ≠ some [] := by
    cases hp : n.pendingshares with
    | none => simp [mndPendingshares, hp]
    | some pm =>
      simp only [mndPendingshares, hp]
      split
      · exact eraseShareEntry_ne_some_nil pm pending
      · intro hc
        simp only [Option.some.injEq] at hc
        exact hpempty (by rw [hp, hc])
  have hps3 : (∀ m, n.outshares = some m → peer ∉ m) → pending ≠ 0 →
      ∀ pm1, mndPendingshares n peer pending = some pm1 → pending ∉ pm1 := by
    intro hnopeer hpd pm1 hpm1
    cases hp : n.pendingshares with
    | none => simp [mndPendingshares, hp] at hpm1
    | some pm =>
      have hfound : mndFound n peer = false := by
        cases ho : n.outshares with
        | none => simp [mndFound, ho]
        | some m => simp [mndFound, ho, hnopeer m ho]
      simp only [mndPendingshares, hp] at hpm1
      rw [if_pos ⟨hfound, hpd⟩] at hpm1
      exact eraseShareEntry_not_mem pm pending (hpnodup pm hp) pm1 hpm1
  unfold mergenewshareDeletedOutgoing
  split
  · next hcond =>
    obtain ⟨hrk, hos, hps⟩ := hcond
    refine ⟨?_, ?_, ?_, ?_, ?_, ?_, ?_⟩
    · intro m hm
      simp only [hos] at hm
      cases hm
    · simp [hos]
    · simp [hps]
    · intro _ _ pm hpm
      simp only [hps] at hpm
      cases hpm
    · simp [hrk, hos, hps]
    · intro _
      rfl
    · intro h
      exact absurd h (by simp)
  · next hcond =>
    refine ⟨hos1, hos2, hps2, hps3, ?_, ?_, ?_⟩
    · exact ⟨fun h => absurd h (by simp), fun hc => absurd hc hcond⟩
    · intro h
      exact absurd h (by simp)
    · intro _
      rfl

/-- Witness for `C4_mergenewshare_outgoing_deletion` on a node with a
single outgoing share to peer 7 and a pending share to 9. -/
theorem C4_mergenewshare_outgoing_deletion_witness :
    (mergenewshareDeletedOutgoing ⟨some [7], some [9], some [1]⟩ 7 9 true).node.outshares
      ≠ some [] ∧
    (mergenewshareDeletedOutgoing ⟨some [7], some [9], some [1]⟩ 7 9 true).node.pendingshares
      ≠ some [] := by
  have h := C4_mergenewshare_outgoing_deletion ⟨some [7], some [9], some [1]⟩ 7 9 true
    (by intro m hm; simp only [Option.some.injEq] at hm; subst hm; decide)
    (by intro pm hpm; simp only [Option.some.injEq] at hpm; subst hpm; decide)
    (by decide)
  exact ⟨h.2.1, h.2.2.1⟩

/-- C2: a packet whose `i` (originating-session) field equals the
client's own session id is not applied to the local model, except
while a bulk fetch-nodes is in progress, during which it is applied. -/
theorem C2_procsc_self_originated_skip (α : Type) (apply : α → α)
    (sessionid tail : List Char) (st : α) :
    (procscPacketStep apply false sessionid
        (['"', 'i', '"', ':', '"'] ++ sessionid ++ '"' :: tail) st = st) ∧
    (procscPacketStep apply true sessionid
        (['"', 'i', '"', ':', '"'] ++ sessionid ++ '"' :: tail) st = apply st) := by
  have hself : scSelfOriginated sessionid
      (['"', 'i', '"', ':', '"'] ++ sessionid ++ '"' :: tail) = true := by
    simp only [scSelfOriginated]
    rw [if_pos]
    refine ⟨rfl, ?_, ?_⟩
    · rw [List.drop_append_of_le_length (by simp)]
      simp [List.take_left]
    · rw [show 5 + sessionid.length
          = (['"', 'i', '"', ':', '"'] ++ sessionid).length by simp; omega,
        show ['"', 'i', '"', ':', '"'] ++ sessionid ++ '"' :: tail
          = (['"', 'i', '"', ':', '"'] ++ sessionid) ++ '"' :: tail by simp,
        List.drop_left]
      simp
  simp only [List.cons_append, List.nil_append] at hself
  constructor
  · simp [procscPacketStep, hself]
  · simp [procscPacketStep]

/-- C5 (amended): for an *unsigned* key type (Ed25519), a fingerprint
mismatch on a tracked key preserves the tracked entry, raises the
`key_modified` callback, emits telemetry event 99451, and returns
`EKEY`. -/
theorem C5_trackKey_mismatch_unsigned (fp : List Nat → List Nat)
    (users : List Nat) (me : Nat) (ringsTemp rings : List (AuthringType × AuthRing))
    (ring : AuthRing) (uh : Nat) (pubKey : List Nat)
    (huser : uh ∈ users)
    (htemp : findRing ringsTemp .authring = none)
    (hring : findRing rings .authring = some ring)
    (htracked : ring.isTracked uh = true)
    (hmismatch : fp pubKey ≠ ring.getFingerprint uh) :
    trackKey fp users me ringsTemp rings .ed25519pub uh pubKey
      = ⟨API_EKEY, some ring, ⟨[(uh, .ed25519pub)], [99451], 0, false⟩⟩ := by
  have hmatch : (fp pubKey == ring.getFingerprint uh) = false :=
    beq_eq_false_iff_ne.mpr hmismatch
  simp only [trackKey, keyTypeToAuthringType, htemp, hring]
  rw [if_neg (by simp [huser])]
  rw [if_pos ⟨htracked, by simp [hmatch], rfl⟩]

/-- Witness for `C5_trackKey_mismatch_unsigned`: user 1 is tracked in
the Ed25519 authring with fingerprint `[0]`; a key with fingerprint
`[2]` arrives. -/
theorem C5_trackKey_mismatch_unsigned_witness :
    trackKey (fun l => l) [1] 0 [] [(.authring, ⟨[(1, ([0], .seen))]⟩)]
        .ed25519pub 1 [2]
      = ⟨API_EKEY, some ⟨[(1, ([0], .seen))]⟩,
          ⟨[(1, .ed25519pub)], [99451], 0, false⟩⟩ :=
  C5_trackKey_mismatch_unsigned (fun l => l) [1] 0 []
    [(.authring, ⟨[(1, ([0], .seen))]⟩)] ⟨[(1, ([0], .seen))]⟩ 1 [2]
    (by decide) rfl rfl (by decide) (by decide)

/-- C1 (amended): completion of the in-flight CS request with body
exactly `"-3"` or `"-4"`, or failure with HTTP status 500 or 0,
triggers the exponential backoff and re-queues the whole batch
(outcome `retry`, state unchanged: no pending command is completed or
aborted) — provided the SSL public-key pin check did not fail (or
retry-on-ESSL is configured). -/
theorem C1_cs_error_mapping_backoff (st : CSState) (resp : CSResponse)
    (hssl : resp.sslcheckfailed = false ∨ st.retryessl = true) :
    (resp.status = .success → resp.body = ['-', '3'] →
      csHandleResponse st resp = (.retry .apiLock, st)) ∧
    (resp.status = .success → resp.body = ['-', '4'] →
      csHandleResponse st resp = (.retry .rateLimit, st)) ∧
    (resp.status = .failure → resp.httpstatus = 500 →
      csHandleResponse st resp = (.retry .serversBusy, st)) ∧
    (resp.status = .failure → resp.httpstatus = 0 →
      csHandleResponse st resp = (.retry .connectivity, st)) := by
  obtain ⟨s, b, hstt, ssl⟩ := resp
  simp only at hssl
  have hsslcase : ¬ (ssl = true ∧ st.retryessl = false) := by
    rcases hssl with h | h <;> simp [h]
  refine ⟨?_, ?_, ?_, ?_⟩ <;> intro h1 h2 <;>
    simp only at h1 h2 <;> subst h1 <;> subst h2 <;>
    simp [csHandleResponse, csFailurePath, hsslcase]

/-- Witness for `C1_cs_error_mapping_backoff`: a plain `"-3"` response
is retried as an API-lock backoff. -/
theorem C1_cs_error_mapping_backoff_witness :
    csHandleResponse ⟨[97], false⟩ ⟨.success, ['-', '3'], 200, false⟩
      = (.retry .apiLock, ⟨[97], false⟩) :=
  (C1_cs_error_mapping_backoff ⟨[97], false⟩ ⟨.success, ['-', '3'], 200, false⟩
    (Or.inl rfl)).1 rfl rfl

/-- C1 counterexample to the claim as stated: a request failing with
HTTP status 0 whose SSL public-key check failed (with retry-ESSL off)
does *not* re-queue the batch — it aborts every pending command with
`API_ESSL`. -/
theorem C1_cs_http0_ssl_abort_counterexample :
    csHandleResponse ⟨[97], false⟩ ⟨.failure, [], 0, true⟩
      = (.aborted API_ESSL, ⟨[97], false⟩) := by decide

/-- `csFailurePath` never touches the client state (in particular the
`reqid` of the retried POST is unchanged). -/
theorem csFailurePath_state (st : CSState) (resp : CSResponse)
    (r0 : RetryReason) : (csFailurePath st resp r0).2 = st := by
  simp only [csFailurePath]
  split <;> rfl

/-- `csFailurePath` never reports the batch as processed. -/
theorem csFailurePath_ne_processed (st : CSState) (resp : CSResponse)
    (r0 : RetryReason) : (csFailurePath st resp r0).1 ≠ .processed := by
  simp only [csFailurePath]
  split <;> simp

/-- Carrying preserves the width of the `reqid` array. -/
theorem bumpReqidRev_length : ∀ l : List Nat, (bumpReqidRev l).length = l.length := by
  intro l
  induction l with
  | nil => rfl
  | cons c t ih =>
    simp only [bumpReqidRev]
    split <;> simp [ih]

/-- Bumping keeps every digit in `'a'..'z'`. -/
theorem bumpReqidRev_lower : ∀ l : List Nat, (∀ c ∈ l, 97 ≤ c ∧ c ≤ 122) →
    ∀ c ∈ bumpReqidRev l, 97 ≤ c ∧ c ≤ 122 := by
  intro l
  induction l with
  | nil => intro _ c hc; cases hc
  | cons c t ih =>
    intro h x hx
    have hc := h c (List.mem_cons_self c t)
    have ht := fun y hy => h y (List.mem_cons_of_mem c hy)
    simp only [bumpReqidRev] at hx
    split at hx
    · rcases List.mem_cons.mp hx with rfl | hx2
      · omega
      · exact ht x hx2
    · rcases List.mem_cons.mp hx with rfl | hx2
      · omega
      · exact ih ht x hx2

/-- A lowercase digit string denotes a value below `26 ^ width`. -/
theorem reqidValRev_lt : ∀ l : List Nat, (∀ c ∈ l, 97 ≤ c ∧ c ≤ 122) →
    reqidValRev l < 26 ^ l.length := by
  intro l
  induction l with
  | nil => intro _; simp [reqidValRev]
  | cons c t ih =>
    intro h
    have hc := h c (List.mem_cons_self c t)
    have ht := ih (fun y hy => h y (List.mem_cons_of_mem c hy))
    simp only [reqidValRev, List.length_cons, pow_succ]
    omega

/-- The increment loop adds one to the base-26 value, modulo
`26 ^ width`. -/
theorem bumpReqidRev_val : ∀ l : List Nat, (∀ c ∈ l, 97 ≤ c ∧ c ≤ 122) →
    reqidValRev (bumpReqidRev l) = (reqidValRev l + 1) % 26 ^ l.length := by
  intro l
  induction l with
  | nil => intro _; simp [bumpReqidRev, reqidValRev]
  | cons c t ih =>
    intro h
    have hc := h c (List.mem_cons_self c t)
    have ht := fun y hy => h y (List.mem_cons_of_mem c hy)
    have hv := reqidValRev_lt t ht
    by_cases hlt : c < 122
    · simp only [bumpReqidRev, if_pos hlt, reqidValRev, List.length_cons, pow_succ]
      have hfull : (c - 97) + 26 * reqidValRev t + 1 < 26 ^ t.length * 26 := by
        omega
      rw [Nat.mod_eq_of_lt hfull]
      omega
    · have hz : c = 122 := by omega
      subst hz
      simp only [bumpReqidRev, if_neg hlt, reqidValRev, List.length_cons, pow_succ]
      rw [show (122 - 97) + 26 * reqidValRev t + 1 = 26 * (reqidValRev t + 1) by omega,
        show 26 ^ t.length * 26 = 26 * 26 ^ t.length by ring,
        Nat.mul_mod_mul_left, ih ht]
      omega

/-- C9 (amended): `reqid` is a fixed-width base-26 counter over the
lowercase letters `'a'..'z'`; the dispatcher bumps it (add one modulo
`26 ^ width`) exactly when a CS response array is processed, and a
retried POST (connectivity failure, `-3`/`-4`, 500) carries the same
unbumped `reqid`. -/
theorem C9_reqid_base26_bump (st : CSState) (resp : CSResponse) (r : List Nat)
    (hlower : ∀ c ∈ r, 97 ≤ c ∧ c ≤ 122) :
    (∀ o st2, csHandleResponse st resp = (o, st2) →
      (o = .processed → st2.reqid = bumpReqid st.reqid) ∧
      (∀ reason, o = .retry reason → st2 = st)) ∧
    reqidValue (bumpReqid r) = (reqidValue r + 1) % 26 ^ r.length ∧
    (bumpReqid r).length = r.length ∧
    (∀ c ∈ bumpReqid r, 97 ≤ c ∧ c ≤ 122) := by
  have hlowrev : ∀ c ∈ r.reverse, 97 ≤ c ∧ c ≤ 122 := by
    intro c hc
    exact hlower c (List.mem_reverse.mp hc)
  refine ⟨?_, ?_, ?_, ?_⟩
  · intro o st2 heq
    obtain ⟨s, b, hstt, ssl⟩ := resp
    cases s with
    | success =>
      simp only [csHandleResponse] at heq
      split at heq
      · split at heq
        · injection heq with h1 h2
          subst h1
          subst h2
          exact ⟨fun _ => rfl, fun reason hre => CSOutcome.noConfusion hre⟩
        · injection heq with h1 h2
          subst h1
          subst h2
          exact ⟨fun hp => CSOutcome.noConfusion hp, fun reason hre => CSOutcome.noConfusion hre⟩
      · refine ⟨fun hp => ?_, fun reason hre => ?_⟩
        · have h1 := csFailurePath_ne_processed st ⟨.success, b, hstt, ssl⟩
            (if b = ['-', '3'] then .apiLock else .rateLimit)
          rw [heq] at h1
          exact absurd hp h1
        · have h2 := csFailurePath_state st ⟨.success, b, hstt, ssl⟩
            (if b = ['-', '3'] then .apiLock else .rateLimit)
          rw [heq] at h2
          exact h2
    | failure =>
      simp only [csHandleResponse] at heq
      refine ⟨fun hp => ?_, fun reason hre => ?_⟩
      · have h1 := csFailurePath_ne_processed st ⟨.failure, b, hstt, ssl⟩ .noReason
        rw [heq] at h1
        exact absurd hp h1
      · have h2 := csFailurePath_state st ⟨.failure, b, hstt, ssl⟩ .noReason
        rw [heq] at h2
        exact h2
  · simp only [reqidValue, bumpReqid, List.reverse_reverse]
    rw [bumpReqidRev_val r.reverse hlowrev, List.length_reverse]
  · simp [bumpReqid, bumpReqidRev_length]
  · intro c hc
    simp only [bumpReqid, List.mem_reverse] at hc
    exact bumpReqidRev_lower r.reverse hlowrev c hc

/-- Witness for `C9_reqid_base26_bump`: bumping `"az"` (values
`[97, 122]`) yields `"ba"` (`[98, 97]`), one more in base 26. -/
theorem C9_reqid_base26_bump_witness :
    reqidValue (bumpReqid [97, 122]) = (reqidValue [97, 122] + 1) % 26 ^ 2 ∧
    (csHandleResponse ⟨[97, 122], false⟩ ⟨.failure, [], 0, false⟩).2
      = ⟨[97, 122], false⟩ := by
  have h := C9_reqid_base26_bump ⟨[97, 122], false⟩ ⟨.failure, [], 0, false⟩
    [97, 122] (by decide)
  refine ⟨h.2.1, ?_⟩
  exact ((h.1 (csHandleResponse ⟨[97, 122], false⟩ ⟨.failure, [], 0, false⟩).1
      (csHandleResponse ⟨[97, 122], false⟩ ⟨.failure, [], 0, false⟩).2 rfl).2
    .connectivity (by decide))

/-- C9 counterexample to the claim as stated: the counter is not
base-36/zero-padded — bumping `"az"` gives `"ba"` (`[98, 97]`), while
a base-36 zero-padded counter would give `"b0"` (`[98, 48]`). -/
theorem C9_reqid_base36_counterexample :
    bumpReqid [97, 122] = [98, 97] ∧ specBase36Bump [97, 122] = [98, 48] ∧
    bumpReqid [97, 122] ≠ specBase36Bump [97, 122] := by decide

/-- `updateAt` at the written index. -/
theorem updateAt_same (cs : DtCounters) (i : Nat) (f : DtCounter → DtCounter) :
    updateAt cs i f i = f (cs i) := if_pos rfl

/-- `updateAt` elsewhere. -/
theorem updateAt_other (cs : DtCounters) (i : Nat) (f : DtCounter → DtCounter)
    (j : Nat) (h : j ≠ i) : updateAt cs i f j = cs j := if_neg h

/-- Direction counters live at indices 0..1. -/
theorem dirIndex_le_one (d : Direction) : dirIndex d ≤ 1 := by
  cases d <;> simp [dirIndex]

/-- Category counters live at indices 2..5. -/
theorem two_le_catIndex (t : Transfer) : 2 ≤ catIndex t := by
  simp only [catIndex]
  omega

/-- Category and direction counters never alias. -/
theorem catIndex_ne_dirIndex (t : Transfer) (d : Direction) :
    catIndex t ≠ dirIndex d := by
  have h1 := dirIndex_le_one d
  have h2 := two_le_catIndex t
  omega

/-- `dirIndex` separates the two directions. -/
theorem dirIndex_inj (d d' : Direction) : dirIndex d = dirIndex d' ↔ d = d' := by
  cases d <;> cases d' <;> simp [dirIndex]

/-- Unfolding `countDir` over a cons cell. -/
theorem countDir_cons (t : Transfer) (l : List Transfer) (d : Direction) :
    countDir (t :: l) d = (if t.dir = d then 1 else 0) + countDir l d := by
  by_cases h : t.dir = d <;> simp [countDir, List.filter_cons, h] <;> omega

/-- `countDir` distributes over append. -/
theorem countDir_append (a b : List Transfer) (d : Direction) :
    countDir (a ++ b) d = countDir a d + countDir b d := by
  simp [countDir, List.filter_append]

/-- The existing-slot fold never touches the `added` counters. -/
theorem countersInit_added : ∀ (l : List Transfer) (cs : DtCounters) (i : Nat),
    ((countersInit l cs) i).added = (cs i).added := by
  intro l
  induction l with
  | nil => intro cs i; rfl
  | cons t rest ih =>
    intro cs i
    simp only [countersInit]
    rw [ih]
    by_cases h1 : i = dirIndex t.dir
    · subst h1
      rw [updateAt_same,
        updateAt_other cs (catIndex t) _ _ (Ne.symm (catIndex_ne_dirIndex t t.dir))]
      rfl
    · rw [updateAt_other _ _ _ i h1]
      by_cases h2 : i = catIndex t
      · subst h2
        rw [updateAt_same]
        rfl
      · rw [updateAt_other _ _ _ i h2]

/-- The existing-slot fold counts each direction's slots into its
direction counter. -/
theorem countersInit_dir_total : ∀ (l : List Transfer) (cs : DtCounters)
    (d : Direction),
    ((countersInit l cs) (dirIndex d)).total
      = (cs (dirIndex d)).total + countDir l d := by
  intro l
  induction l with
  | nil => intro cs d; simp [countersInit, countDir]
  | cons t rest ih =>
    intro cs d
    simp only [countersInit]
    rw [ih, countDir_cons]
    have hstep : ((updateAt
          (updateAt cs (catIndex t) (fun c => c.addexisting t.size t.progressed))
          (dirIndex t.dir) (fun c => c.addexisting t.size t.progressed))
          (dirIndex d)).total
        = (cs (dirIndex d)).total + (if t.dir = d then 1 else 0) := by
      by_cases h : d = t.dir
      · subst h
        rw [updateAt_same,
          updateAt_other cs (catIndex t) _ _ (Ne.symm (catIndex_ne_dirIndex t t.dir))]
        simp [DtCounter.addexisting]
      · have hne : dirIndex d ≠ dirIndex t.dir := fun hh => h ((dirIndex_inj d t.dir).mp hh)
        rw [updateAt_other _ _ _ _ hne,
          updateAt_other cs (catIndex t) _ _ (Ne.symm (catIndex_ne_dirIndex t d))]
        simp [Ne.symm h]
    omega

/-- A rejected candidate leaves the counters untouched. -/
theorem testAddTransfer_false (speed : Direction → Int) (cs : DtCounters)
    (t : Transfer) (h : (testAddTransfer speed cs t).1 = false) :
    (testAddTransfer speed cs t).2 = cs := by
  simp only [testAddTransfer] at h ⊢
  split_ifs at h ⊢ <;> simp_all

/-- An accepted candidate bumps its category and direction counters. -/
theorem testAddTransfer_true (speed : Direction → Int) (cs : DtCounters)
    (t : Transfer) (h : (testAddTransfer speed cs t).1 = true) :
    (testAddTransfer speed cs t).2
      = updateAt (updateAt cs (catIndex t) (fun c => c.addnew t.size))
          (dirIndex t.dir) (fun c => c.addnew t.size) := by
  simp only [testAddTransfer] at h ⊢
  split_ifs at h ⊢ <;> simp_all

/-- Effect of an accepted candidate on the direction counters. -/
theorem addnew_dir (cs : DtCounters) (t : Transfer) (d : Direction) :
    ((updateAt (updateAt cs (catIndex t) (fun c => c.addnew t.size))
        (dirIndex t.dir) (fun c => c.addnew t.size)) (dirIndex d)).total
      = (cs (dirIndex d)).total + (if t.dir = d then 1 else 0) ∧
    ((updateAt (updateAt cs (catIndex t) (fun c => c.addnew t.size))
        (dirIndex t.dir) (fun c => c.addnew t.size)) (dirIndex d)).added
      = (cs (dirIndex d)).added + (if t.dir = d then 1 else 0) := by
  by_cases h : d = t.dir
  · subst h
    rw [updateAt_same,
      updateAt_other cs (catIndex t) _ _ (Ne.symm (catIndex_ne_dirIndex t t.dir))]
    simp [DtCounter.addnew, DtCounter.addexisting]
  · have hne : dirIndex d ≠ dirIndex t.dir := fun hh => h ((dirIndex_inj d t.dir).mp hh)
    rw [updateAt_other _ _ _ _ hne,
      updateAt_other cs (catIndex t) _ _ (Ne.symm (catIndex_ne_dirIndex t d))]
    simp [Ne.symm h]

/-- What `continueDirection = true` guarantees. -/
theorem continueDirection_true (cs : DtCounters) (d : Direction)
    (h : continueDirection cs d = true) :
    (cs (dirIndex d)).total < MAXTRANSFERS
      ∧ (cs (dirIndex d)).added < MAXTRANSFERS / 2 := by
  simp only [continueDirection] at h
  split_ifs at h <;> simp_all <;> omega

/-- One selection pass: the direction counters account exactly for the
selected transfers, and the per-direction caps (32 in total, 16 added)
are never exceeded. -/
theorem nexttransfersCat_dir (speed : Direction → Int) :
    ∀ (cands : List Transfer) (cs : DtCounters) (d : Direction),
    ((nexttransfersCat speed cs cands).1 (dirIndex d)).total
      = (cs (dirIndex d)).total + countDir (nexttransfersCat speed cs cands).2 d ∧
    ((nexttransfersCat speed cs cands).1 (dirIndex d)).added
      = (cs (dirIndex d)).added + countDir (nexttransfersCat speed cs cands).2 d ∧
    ((nexttransfersCat speed cs cands).1 (dirIndex d)).total
      ≤ max ((cs (dirIndex d)).total) MAXTRANSFERS ∧
    ((nexttransfersCat speed cs cands).1 (dirIndex d)).added
      ≤ max ((cs (dirIndex d)).added) (MAXTRANSFERS / 2) := by
  intro cands
  induction cands with
  | nil =>
    intro cs d
    simp [nexttransfersCat, countDir]
  | cons t rest ih =>
    intro cs d
    simp only [nexttransfersCat]
    by_cases hcd : continueDirection cs t.dir = true
    · rw [if_pos hcd]
      rcases hta : testAddTransfer speed cs t with ⟨b, cs1⟩
      cases b
      · have hcs1 : cs1 = cs := by
          have h := testAddTransfer_false speed cs t (by rw [hta])
          rw [hta] at h
          exact h
        subst hcs1
        simp only [hta]
        exact ih cs1 d
      · have hcs1 : cs1 = updateAt (updateAt cs (catIndex t) (fun c => c.addnew t.size))
            (dirIndex t.dir) (fun c => c.addnew t.size) := by
          have h := testAddTransfer_true speed cs t (by rw [hta])
          rw [hta] at h
          exact h
        simp only [hta]
        obtain ⟨i1, i2, i3, i4⟩ := ih cs1 d
        have hup := addnew_dir cs t d
        rw [hcs1] at i1 i2 i3 i4 ⊢
        obtain ⟨a1, a2⟩ := hup
        have hb := continueDirection_true cs t.dir hcd
        rw [countDir_cons]
        by_cases hd : d = t.dir
        · have hite : (if t.dir = d then 1 else 0) = 1 := if_pos hd.symm
          rw [hite] at a1 a2 ⊢
          have hb2 : (cs (dirIndex d)).total < MAXTRANSFERS
              ∧ (cs (dirIndex d)).added < MAXTRANSFERS / 2 := by
            rw [hd]
            exact hb
          refine ⟨by omega, by omega, by omega, by omega⟩
        · have hite : (if t.dir = d then 1 else 0) = 0 :=
            if_neg (fun hh => hd hh.symm)
          rw [hite] at a1 a2 ⊢
          refine ⟨by omega, by omega, by omega, by omega⟩
    · rw [if_neg hcd]
      simp [countDir]
  -- end

/-- All four selection passes: the per-direction totals account for
every selected transfer and stay within the caps. -/
theorem nexttransfersAll_dir (speed : Direction → Int) :
    ∀ (cats : List (List Transfer)) (cs : DtCounters) (d : Direction),
    ((nexttransfersAll speed cs cats).1 (dirIndex d)).total
      = (cs (dirIndex d)).total + countDirs (nexttransfersAll speed cs cats).2 d ∧
    ((nexttransfersAll speed cs cats).1 (dirIndex d)).added
      = (cs (dirIndex d)).added + countDirs (nexttransfersAll speed cs cats).2 d ∧
    ((nexttransfersAll speed cs cats).1 (dirIndex d)).total
      ≤ max ((cs (dirIndex d)).total) MAXTRANSFERS ∧
    ((nexttransfersAll speed cs cats).1 (dirIndex d)).added
      ≤ max ((cs (dirIndex d)).added) (MAXTRANSFERS / 2) := by
  intro cats
  induction cats with
  | nil =>
    intro cs d
    simp [nexttransfersAll, countDirs]
  | cons cat cats ih =>
    intro cs d
    simp only [nexttransfersAll, countDirs]
    obtain ⟨c1, c2, c3, c4⟩ := nexttransfersCat_dir speed cat cs d
    obtain ⟨i1, i2, i3, i4⟩ := ih (nexttransfersCat speed cs cat).1 d
    refine ⟨by omega, by omega, by omega, by omega⟩

/-- The per-category start loop only prepends (a subset of) the
selected transfers and respects `MAXTOTALTRANSFERS`. -/
theorem dispatchStartCat_spec (blocked : Bool) (qfa : Nat)
    (opens : Transfer → Bool) :
    ∀ (sel tslots : List Transfer),
    ∃ news, (dispatchStartCat blocked qfa opens sel tslots).1 = news ++ tslots ∧
      (∀ d, countDir news d ≤ countDir sel d) ∧
      (dispatchStartCat blocked qfa opens sel tslots).1.length
        ≤ max tslots.length MAXTOTALTRANSFERS := by
  intro sel
  induction sel with
  | nil =>
    intro tslots
    exact ⟨[], rfl, fun d => Nat.le_refl _, le_max_left _ _⟩
  | cons t rest ih =>
    intro tslots
    simp only [dispatchStartCat]
    by_cases h1 : slotavail blocked tslots = false
    · rw [if_pos h1]
      refine ⟨[], rfl, fun d => ?_, le_max_left _ _⟩
      simp [countDir]
    · rw [if_neg h1]
      by_cases h2 : t.dir = .put ∧ qfa > MAXQUEUEDFA
      · rw [if_pos h2]
        refine ⟨[], rfl, fun d => ?_, le_max_left _ _⟩
        simp [countDir]
      · rw [if_neg h2]
        have hlt : tslots.length < MAXTOTALTRANSFERS := by
          have h1t : slotavail blocked tslots = true :=
            Bool.eq_true_of_ne_false h1
          simp only [slotavail, decide_eq_true_eq] at h1t
          exact h1t.2
        by_cases h3 : opens t = true
        · rw [if_pos h3]
          obtain ⟨news, hn1, hn2, hn3⟩ := ih (t :: tslots)
          refine ⟨news ++ [t], ?_, fun d => ?_, ?_⟩
          · rw [hn1]
            simp
          · rw [countDir_append]
            have h1 := hn2 d
            have h2 : countDir (t :: rest) d
                = (if t.dir = d then 1 else 0) + countDir rest d :=
              countDir_cons t rest d
            have h3 : countDir [t] d
                = (if t.dir = d then 1 else 0) + countDir [] d :=
              countDir_cons t [] d
            have h4 : countDir ([] : List Transfer) d = 0 := rfl
            omega
          · refine le_trans hn3 ?_
            simp only [List.length_cons]
            omega
        · rw [if_neg h3]
          obtain ⟨news, hn1, hn2, hn3⟩ := ih tslots
          refine ⟨news, hn1, fun d => ?_, hn3⟩
          have := hn2 d
          rw [countDir_cons]
          omega

/-- The full start loop only prepends (a subset of) the selections and
respects `MAXTOTALTRANSFERS`. -/
theorem dispatchStartAll_spec (blocked : Bool) (qfa : Nat)
    (opens : Transfer → Bool) :
    ∀ (cats : List (List Transfer)) (tslots : List Transfer),
    ∃ news, dispatchStartAll blocked qfa opens cats tslots = news ++ tslots ∧
      (∀ d, countDir news d ≤ countDirs cats d) ∧
      (dispatchStartAll blocked qfa opens cats tslots).length
        ≤ max tslots.length MAXTOTALTRANSFERS := by
  intro cats
  induction cats with
  | nil =>
    intro tslots
    refine ⟨[], rfl, fun d => Nat.le_refl _, le_max_left _ _⟩
  | cons sel cats ih =>
    intro tslots
    simp only [dispatchStartAll]
    obtain ⟨news1, hc1, hc2, hc3⟩ := dispatchStartCat_spec blocked qfa opens sel tslots
    by_cases hret : (dispatchStartCat blocked qfa opens sel tslots).2 = true
    · rw [if_pos hret]
      refine ⟨news1, hc1, fun d => ?_, hc3⟩
      have := hc2 d
      simp only [countDirs]
      omega
    · rw [if_neg hret]
      obtain ⟨news2, ha1, ha2, ha3⟩ := ih (dispatchStartCat blocked qfa opens sel tslots).1
      refine ⟨news2 ++ news1, ?_, fun d => ?_, ?_⟩
      · rw [ha1, hc1, List.append_assoc]
      · rw [countDir_append]
        have h1 := ha2 d
        have h2 := hc2 d
        simp only [countDirs]
        omega
      · refine le_trans ha3 ?_
        have := hc3
        omega

/-- C6: a `dispatchTransfers` tick never drives the slot list above
`MAXTOTALTRANSFERS` (48), starts no transfer in a direction whose slot
total has reached `MAXTRANSFERS` (32), and starts at most
`MAXTRANSFERS/2` (16) new transfers per direction. -/
theorem C6_dispatch_slot_invariants (blocked : Bool) (tslots : List Transfer)
    (qfa : Nat) (speed : Direction → Int) (candidates : List (List Transfer))
    (opens : Transfer → Bool)
    (hlen : tslots.length ≤ MAXTOTALTRANSFERS)
    (hput : countDir tslots .put ≤ MAXTRANSFERS)
    (hget : countDir tslots .get ≤ MAXTRANSFERS) :
    ∃ news,
      dispatchTransfers blocked tslots qfa speed candidates opens
        = news ++ tslots ∧
      (news ++ tslots).length ≤ MAXTOTALTRANSFERS ∧
      countDir (news ++ tslots) .put ≤ MAXTRANSFERS ∧
      countDir (news ++ tslots) .get ≤ MAXTRANSFERS ∧
      countDir news .put ≤ MAXTRANSFERS / 2 ∧
      countDir news .get ≤ MAXTRANSFERS / 2 ∧
      (countDir tslots .put = MAXTRANSFERS → countDir news .put = 0) ∧
      (countDir tslots .get = MAXTRANSFERS → countDir news .get = 0) := by
  simp only [dispatchTransfers]
  by_cases h1 : slotavail blocked tslots = false
  · rw [if_pos h1]
    refine ⟨[], by simp, by simpa using hlen, by simpa [countDir] using hput,
      by simpa [countDir] using hget, by simp [countDir], by simp [countDir],
      fun _ => by simp [countDir], fun _ => by simp [countDir]⟩
  · rw [if_neg h1]
    have hsel : ∀ d : Direction, countDir tslots d
          + countDirs (nexttransfersAll speed (countersInit tslots countersZero)
              candidates).2 d ≤ MAXTRANSFERS ∧
        countDirs (nexttransfersAll speed (countersInit tslots countersZero)
              candidates).2 d ≤ MAXTRANSFERS / 2 := by
      intro d
      obtain ⟨a1, a2, a3, a4⟩ :=
        nexttransfersAll_dir speed candidates (countersInit tslots countersZero) d
      have hcz : (countersZero (dirIndex d)).total = 0 := rfl
      have hcza : (countersZero (dirIndex d)).added = 0 := rfl
      have ht := countersInit_dir_total tslots countersZero d
      have ha := countersInit_added tslots countersZero (dirIndex d)
      have hd : countDir tslots d ≤ MAXTRANSFERS := by
        cases d
        · exact hput
        · exact hget
      constructor
      · omega
      · omega
    obtain ⟨news, hn1, hn2, hn3⟩ := dispatchStartAll_spec blocked qfa opens
      (nexttransfersAll speed (countersInit tslots countersZero) candidates).2 tslots
    refine ⟨news, hn1, ?_, ?_, ?_, ?_, ?_, ?_, ?_⟩
    · rw [← hn1]
      refine le_trans hn3 ?_
      omega
    · rw [countDir_append]
      have := hn2 .put
      have := (hsel .put).1
      omega
    · rw [countDir_append]
      have := hn2 .get
      have := (hsel .get).1
      omega
    · have := hn2 .put
      have := (hsel .put).2
      omega
    · have := hn2 .get
      have := (hsel .get).2
      omega
    · intro hfull
      have := hn2 .put
      have := (hsel .put).1
      omega
    · intro hfull
      have := hn2 .get
      have := (hsel .get).1
      omega

/-- Witness for `C6_dispatch_slot_invariants`: an empty slot list with
one queued large PUT upload that gets started. -/
theorem C6_dispatch_slot_invariants_witness :
    ∃ news,
      dispatchTransfers false [] 0 (fun _ => 0)
          [[⟨.put, 1, 0⟩], [], [], []] (fun _ => true)
        = news ++ [] ∧
      (news ++ []).length ≤ MAXTOTALTRANSFERS ∧
      countDir (news ++ []) .put ≤ MAXTRANSFERS ∧
      countDir (news ++ []) .get ≤ MAXTRANSFERS ∧
      countDir news .put ≤ MAXTRANSFERS / 2 ∧
      countDir news .get ≤ MAXTRANSFERS / 2 ∧
      (countDir ([] : List Transfer) .put = MAXTRANSFERS → countDir news .put = 0) ∧
      (countDir ([] : List Transfer) .get = MAXTRANSFERS → countDir news .get = 0) :=
  C6_dispatch_slot_invariants false [] 0 (fun _ => 0)
    [[⟨.put, 1, 0⟩], [], [], []] (fun _ => true)
    (by decide) (by decide) (by decide)

/-- C5 counterexample to the claim as stated: for a *signed* key type
(X25519), a fingerprint mismatch on a tracked key does *not* return
`EKEY` and raises no `key_modified` callback — `trackKey` returns
`API_OK` and defers to signature verification. -/
theorem C5_trackKey_mismatch_signed_counterexample :
    (trackKey (fun l => l) [1] 0 [] [(.authCu255, ⟨[(1, ([0], .seen))]⟩)]
        .cu25519pub 1 [2]).err = API_OK ∧
    (trackKey (fun l => l) [1] 0 [] [(.authCu255, ⟨[(1, ([0], .seen))]⟩)]
        .cu25519pub 1 [2]).effects.keyModified = [] ∧
    (fun l : List Nat => l) [2]
      ≠ (⟨[(1, ([0], .seen))]⟩ : AuthRing).getFingerprint 1 := by
  refine ⟨?_, ?_, by decide⟩ <;> rfl

/-- `strstr` on an empty haystack with a nonempty needle. -/
theorem strstr_nil (pat : List Char) (h : pat ≠ []) : strstr pat [] = none := by
  simp only [strstr]
  rw [if_neg]
  intro hp
  cases pat with
  | nil => exact h rfl
  | cons a t => simp [List.isPrefixOf] at hp

/-- A needle containing a character the haystack lacks is never a
prefix. -/
theorem isPrefixOf_false_of_not_mem (pat s : List Char) (q : Char)
    (hq : q ∈ pat) (hs : q ∉ s) : pat.isPrefixOf s = false := by
  cases hb : pat.isPrefixOf s
  · rfl
  · have h3 : pat <+: s := List.isPrefixOf_iff_prefix.mp hb
    exact absurd (h3.subset hq) hs

/-- `strstr` steps over a non-matching head. -/
theorem strstr_cons_neg (pat : List Char) (ch : Char) (t : List Char)
    (h : pat.isPrefixOf (ch :: t) = false) :
    strstr pat (ch :: t) = strstr pat t := by
  simp only [strstr]
  rw [h]
  simp

/-- `strstr` at a match. -/
theorem strstr_pos (pat s : List Char) (h : pat.isPrefixOf s = true) :
    strstr pat s = some s := by
  cases s with
  | nil => simp only [strstr, h]; simp
  | cons c t => simp only [strstr, h]; simp

/-- A needle is a prefix of itself followed by anything. -/
theorem isPrefixOf_append_self (pat rest : List Char) :
    pat.isPrefixOf (pat ++ rest) = true :=
  List.isPrefixOf_iff_prefix.mpr (List.prefix_append pat rest)

/-- `strstr` skips any span free of the needle's first character. -/
theorem strstr_skip_first (p : Char) (pat : List Char) :
    ∀ (s rest : List Char), (∀ ch ∈ s, ch ≠ p) →
    strstr (p :: pat) (s ++ rest) = strstr (p :: pat) rest := by
  intro s
  induction s with
  | nil => intro rest _; rfl
  | cons ch s2 ih =>
    intro rest h
    have hch : ch ≠ p := h ch (List.mem_cons_self ch s2)
    have hbeq : (p == ch) = false := beq_eq_false_iff_ne.mpr (Ne.symm hch)
    have hpre : (p :: pat).isPrefixOf (ch :: (s2 ++ rest)) = false := by
      simp [List.isPrefixOf, hbeq]
    rw [List.cons_append, strstr_cons_neg _ _ _ hpre]
    exact ih rest (fun x hx => h x (List.mem_cons_of_mem ch hx))

/-- A needle containing a character the haystack lacks does not occur
at all. -/
theorem strstr_none_of_not_mem (pat : List Char) (q : Char) (hq : q ∈ pat) :
    ∀ s : List Char, (∀ ch ∈ s, ch ≠ q) → strstr pat s = none := by
  intro s
  induction s with
  | nil =>
    intro _
    apply strstr_nil
    intro hp
    subst hp
    cases hq
  | cons ch t ih =>
    intro h
    have hpre : pat.isPrefixOf (ch :: t) = false := by
      apply isPrefixOf_false_of_not_mem pat _ q hq
      intro hmem
      rcases List.mem_cons.mp hmem with hcase | hmem2
      · exact (h ch (List.mem_cons_self ch t)) hcase.symm
      · exact (h q (List.mem_cons_of_mem ch hmem2)) rfl
    rw [strstr_cons_neg _ _ _ hpre]
    exact ih (fun x hx => h x (List.mem_cons_of_mem ch hx))

/-- The link-format markers found (or not) in a canonical file link:
no folder marker occurs; the file marker of the chosen format is found
at its canonical position. -/
theorem strstr_canonical_file (c : LinkCrypto) (nlf : Bool) (ph keyl : List Nat)
    (hchars : ∀ b ch, ch ∈ c.btoa b → ch ≠ '#' ∧ ch ≠ '!' ∧ ch ≠ '/') :
    strstr ['#', 'F', '!'] (publicLinkURL c nlf false ph (c.btoa keyl)) = none ∧
    strstr ['f', 'o', 'l', 'd', 'e', 'r', '/']
      (publicLinkURL c nlf false ph (c.btoa keyl)) = none ∧
    (nlf = true →
      strstr ['#', '!'] (publicLinkURL c nlf false ph (c.btoa keyl)) = none ∧
      strstr ['f', 'i', 'l', 'e', '/'] (publicLinkURL c nlf false ph (c.btoa keyl))
        = some (['f', 'i', 'l', 'e', '/'] ++ (c.btoa ph ++ '#' :: c.btoa keyl))) ∧
    (nlf = false →
      strstr ['#', '!'] (publicLinkURL c nlf false ph (c.btoa keyl))
        = some ('#' :: '!' :: (c.btoa ph ++ '!' :: c.btoa keyl))) := by
  cases nlf with
  | true =>
    have hL : publicLinkURL c true false ph (c.btoa keyl)
        = (['h', 't', 't', 'p', 's', ':', '/', '/', 'm', 'e', 'g', 'a', '.', 'n',
            'z', '/', 'f', 'i', 'l', 'e', '/'] ++ c.btoa ph)
          ++ ('#' :: c.btoa keyl) := by
      simp [publicLinkURL, MEGAURL]
    have hclean : ∀ ch ∈ (['h', 't', 't', 'p', 's', ':', '/', '/', 'm', 'e', 'g',
        'a', '.', 'n', 'z', '/', 'f', 'i', 'l', 'e', '/'] ++ c.btoa ph),
        ch ≠ '#' := by
      intro ch hch
      rcases List.mem_append.mp hch with h1 | h2
      · have hconc : ∀ x ∈ (['h', 't', 't', 'p', 's', ':', '/', '/', 'm', 'e',
            'g', 'a', '.', 'n', 'z', '/', 'f', 'i', 'l', 'e', '/'] : List Char),
            x ≠ '#' := by decide
        exact hconc ch h1
      · exact (hchars ph ch h2).1
    have hkeyhash : ∀ ch ∈ c.btoa keyl, ch ≠ '#' :=
      fun ch hch => (hchars keyl ch hch).1
    have hnotbang : ('!' : Char) ∉ '#' :: c.btoa keyl := by
      intro hmem
      rcases List.mem_cons.mp hmem with hcase | hmem2
      · exact absurd hcase (by decide)
      · exact (hchars keyl '!' hmem2).2.1 rfl
    refine ⟨?_, ?_, ?_, ?_⟩
    · -- "#F!"
      rw [hL, strstr_skip_first '#' ['F', '!'] _ _ hclean,
        strstr_cons_neg _ _ _
          (isPrefixOf_false_of_not_mem _ _ '!' (by decide) hnotbang)]
      exact strstr_none_of_not_mem _ '#' (by decide) _ hkeyhash
    · -- "folder/"
      have hL2 : publicLinkURL c true false ph (c.btoa keyl)
          = ['h', 't', 't', 'p', 's', ':', '/', '/', 'm', 'e', 'g', 'a', '.',
              'n', 'z', '/']
            ++ ('f' :: 'i' :: 'l' :: 'e' :: '/'
              :: (c.btoa ph ++ '#' :: c.btoa keyl)) := by
        simp [publicLinkURL, MEGAURL]
      have hc16 : ∀ ch ∈ (['h', 't', 't', 'p', 's', ':', '/', '/', 'm', 'e', 'g',
          'a', '.', 'n', 'z', '/'] : List Char), ch ≠ 'f' := by decide
      rw [hL2, strstr_skip_first 'f' ['o', 'l', 'd', 'e', 'r', '/'] _ _ hc16,
        strstr_cons_neg _ _ _ (by simp [List.isPrefixOf]),
        show ('i' :: 'l' :: 'e' :: '/' :: (c.btoa ph ++ '#' :: c.btoa keyl))
          = ['i', 'l', 'e', '/'] ++ (c.btoa ph ++ '#' :: c.btoa keyl) by simp,
        strstr_skip_first 'f' ['o', 'l', 'd', 'e', 'r', '/'] _ _ (by decide)]
      apply strstr_none_of_not_mem _ '/' (by decide)
      intro ch hch
      rcases List.mem_append.mp hch with h1 | h2
      · exact (hchars ph ch h1).2.2
      · rcases List.mem_cons.mp h2 with hcase | hmem2
        · subst hcase
          decide
        · exact (hchars keyl ch hmem2).2.2
    · -- "#!" absent in the new format
      intro _
      constructor
      · rw [hL, strstr_skip_first '#' ['!'] _ _ hclean,
          strstr_cons_neg _ _ _
            (isPrefixOf_false_of_not_mem _ _ '!' (by decide) hnotbang)]
        exact strstr_none_of_not_mem _ '#' (by decide) _ hkeyhash
      · -- "file/" found at its canonical position
        have hL2 : publicLinkURL c true false ph (c.btoa keyl)
            = ['h', 't', 't', 'p', 's', ':', '/', '/', 'm', 'e', 'g', 'a', '.',
                'n', 'z', '/']
              ++ (['f', 'i', 'l', 'e', '/']
                ++ (c.btoa ph ++ '#' :: c.btoa keyl)) := by
          simp [publicLinkURL, MEGAURL]
        have hc16 : ∀ ch ∈ (['h', 't', 't', 'p', 's', ':', '/', '/', 'm', 'e',
            'g', 'a', '.', 'n', 'z', '/'] : List Char), ch ≠ 'f' := by decide
        rw [hL2, strstr_skip_first 'f' ['i', 'l', 'e', '/'] _ _ hc16]
        exact strstr_pos _ _ (isPrefixOf_append_self _ _)
    · exact fun h => absurd h (by decide)
  | false =>
    have hL : publicLinkURL c false false ph (c.btoa keyl)
        = ['h', 't', 't', 'p', 's', ':', '/', '/', 'm', 'e', 'g', 'a', '.', 'n',
            'z', '/']
          ++ ('#' :: '!' :: (c.btoa ph ++ '!' :: c.btoa keyl)) := by
      simp [publicLinkURL, MEGAURL]
    have hc16hash : ∀ ch ∈ (['h', 't', 't', 'p', 's', ':', '/', '/', 'm', 'e',
        'g', 'a', '.', 'n', 'z', '/'] : List Char), ch ≠ '#' := by decide
    refine ⟨?_, ?_, fun h => absurd h (by decide), fun _ => ?_⟩
    · -- "#F!"
      rw [hL, strstr_skip_first '#' ['F', '!'] _ _ hc16hash,
        strstr_cons_neg _ _ _ (by simp [List.isPrefixOf])]
      apply strstr_none_of_not_mem _ '#' (by decide)
      intro ch hch
      rcases List.mem_cons.mp hch with hcase | hmem2
      · subst hcase
        decide
      · rcases List.mem_append.mp hmem2 with h1 | h2
        · exact (hchars ph ch h1).1
        · rcases List.mem_cons.mp h2 with hcase2 | hmem3
          · subst hcase2
            decide
          · exact (hchars keyl ch hmem3).1
    · -- "folder/"
      have hL2 : publicLinkURL c false false ph (c.btoa keyl)
          = ['h', 't', 't', 'p', 's', ':', '/', '/', 'm', 'e', 'g', 'a', '.',
              'n', 'z', '/', '#', '!']
            ++ (c.btoa ph ++ '!' :: c.btoa keyl) := by
        simp [publicLinkURL, MEGAURL]
      rw [hL2, strstr_skip_first 'f' ['o', 'l', 'd', 'e', 'r', '/'] _ _ (by decide)]
      apply strstr_none_of_not_mem _ '/' (by decide)
      intro ch hch
      rcases List.mem_append.mp hch with h1 | h2
      · exact (hchars ph ch h1).2.2
      · rcases List.mem_cons.mp h2 with hcase | hmem2
        · subst hcase
          decide
        · exact (hchars keyl ch hmem2).2.2
    · -- "#!" found at its canonical position
      rw [hL, strstr_skip_first '#' ['!'] _ _ hc16hash]
      exact strstr_pos _ _ (by simp [List.isPrefixOf])

/-- `parsepubliclink` recovers the handle bytes and the key from a
canonical file link in either format. -/
theorem parsepubliclink_canonical_file (c : LinkCrypto) (nlf : Bool)
    (ph linkKey : List Nat)
    (hb1 : ∀ b n, (∀ x ∈ b, x < 256) → b.length ≤ n → c.atob (c.btoa b) n = b)
    (hb2 : ∀ b rest, (∀ x ∈ b, x < 256) → b.length = 6 →
      c.atob (c.btoa b ++ rest) 6 = b)
    (hchars : ∀ b ch, ch ∈ c.btoa b → ch ≠ '#' ∧ ch ≠ '!' ∧ ch ≠ '/')
    (hblen : ∀ b, (c.btoa b).length = (4 * b.length + 2) / 3)
    (hphB : ∀ x ∈ ph, x < 256) (hkeyB : ∀ x ∈ linkKey, x < 256)
    (hph : ph.length = 6) (hkey : linkKey.length = 32) :
    parsepubliclink c (publicLinkURL c nlf false ph (c.btoa linkKey)) false
      = .ok (ph, linkKey) := by
  obtain ⟨hF1, hF2, hT, hF⟩ := strstr_canonical_file c nlf ph linkKey hchars
  have h8 : (c.btoa ph).length = 8 := by rw [hblen, hph]
  have h43 : (c.btoa linkKey).length = 43 := by rw [hblen, hkey]
  have hatob6 : c.atob (c.btoa ph ++ '#' :: c.btoa linkKey) 6 = ph :=
    hb2 ph _ hphB hph
  have hatob6b : c.atob (c.btoa ph ++ '!' :: c.btoa linkKey) 6 = ph :=
    hb2 ph _ hphB hph
  have hatobk : c.atob (c.btoa linkKey) 32 = linkKey :=
    hb1 linkKey 32 hkeyB (by rw [hkey])
  cases nlf with
  | true =>
    obtain ⟨hT1, hT2⟩ := hT rfl
    have hdrop5 : (['f', 'i', 'l', 'e', '/']
          ++ (c.btoa ph ++ '#' :: c.btoa linkKey)).drop 5
        = c.btoa ph ++ '#' :: c.btoa linkKey := by
      rw [show (5 : Nat) = (['f', 'i', 'l', 'e', '/'] : List Char).length from rfl,
        List.drop_left]
    have hdrop8 : (c.btoa ph ++ '#' :: c.btoa linkKey).drop 8
        = '#' :: c.btoa linkKey := by
      rw [show (8 : Nat) = (c.btoa ph).length from h8.symm, List.drop_left]
    simp only [parsepubliclink, hF1, hF2, hT1, hT2, hdrop5]
    rw [if_neg (by simp)]
    rw [if_neg (by
      simp only [List.length_append, List.length_cons, h8, h43]
      omega)]
    simp only [NODEHANDLE, hatob6, hph, if_pos rfl, hdrop8, if_true]
    have hdw : List.dropWhile (fun ch => decide (ch ≠ '!' ∧ ch ≠ '#'))
        ('#' :: c.btoa linkKey) = '#' :: c.btoa linkKey := by
      rw [List.dropWhile_cons]
      simp
    rw [hdw]
    simp only [Bool.false_eq_true, if_false, FILENODEKEYLENGTH, hatobk, hkey, h43]
    simp
  | false =>
    have hstart := hF rfl
    have hdrop8 : (c.btoa ph ++ '!' :: c.btoa linkKey).drop 8
        = '!' :: c.btoa linkKey := by
      rw [show (8 : Nat) = (c.btoa ph).length from h8.symm, List.drop_left]
    simp only [parsepubliclink, hF1, hF2, hstart, List.drop]
    rw [if_neg (by simp)]
    rw [if_neg (by
      simp only [List.length_append, List.length_cons, h8, h43]
      omega)]
    simp only [NODEHANDLE, hatob6b, hph, if_pos rfl, hdrop8, if_true]
    have hdw : List.dropWhile (fun ch => decide (ch ≠ '!' ∧ ch ≠ '#'))
        ('!' :: c.btoa linkKey) = '!' :: c.btoa linkKey := by
      rw [List.dropWhile_cons]
      simp
    rw [hdw]
    simp only [Bool.false_eq_true, if_false, FILENODEKEYLENGTH, hatobk, hkey, h43]
    simp


/-- XOR of two byte lists stays within byte range. -/
theorem zipWith_xor_lt_256 : ∀ (a b : List Nat), (∀ x ∈ a, x < 256) →
    (∀ x ∈ b, x < 256) →
    ∀ x ∈ List.zipWith (fun x y => Nat.xor x y) a b, x < 256 := by
  intro a
  induction a with
  | nil => intro b _ _ x hx; simp at hx
  | cons u us ih =>
    intro b ha hb x hx
    cases b with
    | nil => simp at hx
    | cons v vs =>
      simp only [List.zipWith, List.mem_cons] at hx
      rcases hx with rfl | hx
      · have hu : u < 256 := ha u (by simp)
        have hv : v < 256 := hb v (by simp)
        have := Nat.xor_lt_two_pow (n := 8) (by simpa using hu) (by simpa using hv)
        simpa using this
      · exact ih vs (fun y hy => ha y (by simp [hy]))
          (fun y hy => hb y (by simp [hy])) x hx

/-- XOR-decrypting an XOR-encrypted key recovers it. -/
theorem zipWith_xor_cancel : ∀ (a b : List Nat), a.length = b.length →
    List.zipWith (fun x y => Nat.xor x y)
      (List.zipWith (fun x y => Nat.xor x y) a b) a = b := by
  intro a
  induction a with
  | nil =>
    intro b h
    cases b with
    | nil => rfl
    | cons y ys => simp at h
  | cons x xs ih =>
    intro b h
    cases b with
    | nil => simp at h
    | cons y ys =>
      simp only [List.zipWith, List.cons.injEq]
      refine ⟨?_, ih ys (by simpa using h)⟩
      show (x ^^^ y) ^^^ x = y
      rw [Nat.xor_comm x y, Nat.xor_assoc, Nat.xor_self, Nat.xor_zero]

/-- `decryptlink` on a well-formed `#P!` blob recovers the canonical
link for the XOR-decrypted key. -/
theorem decryptlink_canonical_blob (c : LinkCrypto) (nlf : Bool) (alg : Nat)
    (ph salt encKey hmac junk : List Nat) (pwd : List Char)
    (hb1 : ∀ b n, (∀ x ∈ b, x < 256) → b.length ≤ n → c.atob (c.btoa b) n = b)
    (hphB : ∀ x ∈ ph, x < 256) (hsaltB : ∀ x ∈ salt, x < 256)
    (hencB : ∀ x ∈ encKey, x < 256) (hmacB : ∀ x ∈ hmac, x < 256)
    (hph : ph.length = 6) (hsalt : salt.length = 32)
    (henc : encKey.length = 32) (hhmac : hmac.length = 32)
    (halg : alg = 1 ∨ alg = 2)
    (hmacok : hmac = (if alg = 1 then
        c.hmacSha256 ([alg, 1] ++ ph ++ salt ++ encKey)
          (((c.pbkdf2 pwd salt).drop 32).take 32)
      else
        c.hmacSha256 (((c.pbkdf2 pwd salt).drop 32).take 32)
          ([alg, 1] ++ ph ++ salt ++ encKey)))
    (hpwd : pwd ≠ []) :
    decryptlink c nlf
        (MEGAURL ++ ['/', '#', 'P', '!']
          ++ c.btoa ([alg, 1] ++ ph ++ salt ++ encKey ++ hmac)) pwd junk
      = .ok (publicLinkURL c nlf false ph
          (c.btoa (List.zipWith (fun a b => Nat.xor a b) encKey
            ((c.pbkdf2 pwd salt).take 32)))) := by
  have hblobC : [alg, 1] ++ ph ++ salt ++ encKey ++ hmac
      = alg :: 1 :: (ph ++ (salt ++ (encKey ++ hmac))) := by
    simp
  rw [hblobC]
  have hblobLen : (alg :: 1 :: (ph ++ (salt ++ (encKey ++ hmac)))).length = 104 := by
    simp [hph, hsalt, henc, hhmac]
  have hlink : MEGAURL ++ ['/', '#', 'P', '!']
        ++ c.btoa (alg :: 1 :: (ph ++ (salt ++ (encKey ++ hmac))))
      = ['h', 't', 't', 'p', 's', ':', '/', '/', 'm', 'e', 'g', 'a', '.', 'n',
          'z', '/']
        ++ ('#' :: 'P' :: '!'
          :: c.btoa (alg :: 1 :: (ph ++ (salt ++ (encKey ++ hmac))))) := by
    simp [MEGAURL]
  have hP : strstr ['#', 'P', '!']
      (MEGAURL ++ ['/', '#', 'P', '!']
        ++ c.btoa (alg :: 1 :: (ph ++ (salt ++ (encKey ++ hmac)))))
      = some ('#' :: 'P' :: '!'
          :: c.btoa (alg :: 1 :: (ph ++ (salt ++ (encKey ++ hmac))))) := by
    rw [hlink, strstr_skip_first '#' ['P', '!']
      ['h', 't', 't', 'p', 's', ':', '/', '/', 'm', 'e', 'g', 'a', '.', 'n',
        'z', '/']
      ('#' :: 'P' :: '!' :: c.btoa (alg :: 1 :: (ph ++ (salt ++ (encKey ++ hmac)))))
      (by decide)]
    exact strstr_pos _ _ (by simp [List.isPrefixOf])
  have hne : MEGAURL ++ ['/', '#', 'P', '!']
      ++ c.btoa (alg :: 1 :: (ph ++ (salt ++ (encKey ++ hmac)))) ≠ [] := by
    rw [hlink]
    simp
  have hblobB : ∀ x ∈ alg :: 1 :: (ph ++ (salt ++ (encKey ++ hmac))), x < 256 := by
    intro x hx
    simp only [List.mem_cons, List.mem_append] at hx
    rcases hx with rfl | rfl | h | h | h | h
    · rcases halg with rfl | rfl <;> omega
    · omega
    · exact hphB x h
    · exact hsaltB x h
    · exact hencB x h
    · exact hmacB x h
  have hatob : c.atob (c.btoa (alg :: 1 :: (ph ++ (salt ++ (encKey ++ hmac)))))
      (1 + 1 + 6 + 32 + 32 + 32)
      = alg :: 1 :: (ph ++ (salt ++ (encKey ++ hmac))) :=
    hb1 _ _ hblobB (by rw [hblobLen])
  have hbody6 : (ph ++ (salt ++ (encKey ++ hmac))).take 6 = ph := by
    rw [show (6 : Nat) = ph.length from hph.symm, List.take_left]
  have hbody6d : ((ph ++ (salt ++ (encKey ++ hmac))).drop 6).take 32 = salt := by
    rw [show (6 : Nat) = ph.length from hph.symm, List.drop_left,
      show (32 : Nat) = salt.length from hsalt.symm, List.take_left]
  have hbody38 : ((ph ++ (salt ++ (encKey ++ hmac))).drop 38).take 32 = encKey := by
    rw [show ph ++ (salt ++ (encKey ++ hmac)) = (ph ++ salt) ++ (encKey ++ hmac) by
        rw [List.append_assoc],
      show (38 : Nat) = (ph ++ salt).length by simp [hph, hsalt],
      List.drop_left,
      show (32 : Nat) = encKey.length from henc.symm, List.take_left]
  have hbody70 : ((ph ++ (salt ++ (encKey ++ hmac))).drop (38 + 32)).take 32
      = hmac := by
    rw [show ph ++ (salt ++ (encKey ++ hmac)) = ((ph ++ salt) ++ encKey) ++ hmac by
        simp [List.append_assoc],
      show (38 + 32 : Nat) = ((ph ++ salt) ++ encKey).length by
        simp [hph, hsalt, henc],
      List.drop_left,
      show (32 : Nat) = hmac.length from hhmac.symm]
    exact List.take_length hmac
  have htake72 : (alg :: 1 :: (ph ++ (salt ++ (encKey ++ hmac)))).take (40 + 32)
      = [alg, 1] ++ ph ++ salt ++ encKey := by
    rw [show alg :: 1 :: (ph ++ (salt ++ (encKey ++ hmac)))
        = ([alg, 1] ++ ph ++ salt ++ encKey) ++ hmac by simp [List.append_assoc],
      show (40 + 32 : Nat) = ([alg, 1] ++ ph ++ salt ++ encKey).length by
        simp [hph, hsalt, henc],
      List.take_left]
  simp only [decryptlink, hP]
  rw [if_neg (by
    push_neg
    exact ⟨hpwd, hne⟩)]
  rw [show List.drop 3 ('#' :: 'P' :: '!'
      :: c.btoa (alg :: 1 :: (ph ++ (salt ++ (encKey ++ hmac)))))
    = c.btoa (alg :: 1 :: (ph ++ (salt ++ (encKey ++ hmac)))) from rfl, hatob]
  rw [if_neg (by rw [hblobLen]; omega)]
  simp only [hblobLen, hbody6, hbody6d, hbody38, hbody70, htake72]
  rw [if_neg (fun h => halg.elim (fun h1 => h.1 h1) (fun h2 => h.2 h2))]
  simp only [show (if (1 : Nat) = 0 then (1 : Nat) else 0) = 0 from rfl]
  rw [if_neg (by decide)]
  simp only [show (if (0 : Nat) = 1 then FOLDERNODEKEYLENGTH else FILENODEKEYLENGTH)
      = FILENODEKEYLENGTH from rfl]
  simp only [FILENODEKEYLENGTH]
  rw [if_neg (by omega)]
  simp only [hbody70, htake72]
  rw [← hmacok, if_neg (fun hh => hh rfl)]
  simp only [hbody38, Nat.sub_self, List.take_zero, List.append_nil,
    show (decide ((0 : Nat) = 1)) = false from rfl]

/-- C7 (amended): the password-link round trip on canonical *file*
links: `encryptlink` (which hardcodes algorithm 2) composed with
`decryptlink` returns exactly the input link, and the same holds for
blobs built with the source's algorithm-1 HMAC branch. -/
theorem C7_password_link_file_roundtrip (c : LinkCrypto) (nlf : Bool) (alg : Nat)
    (ph linkKey salt junk : List Nat) (pwd : List Char)
    (hb1 : ∀ b n, (∀ x ∈ b, x < 256) → b.length ≤ n → c.atob (c.btoa b) n = b)
    (hb2 : ∀ b rest, (∀ x ∈ b, x < 256) → b.length = 6 →
      c.atob (c.btoa b ++ rest) 6 = b)
    (hchars : ∀ b ch, ch ∈ c.btoa b → ch ≠ '#' ∧ ch ≠ '!' ∧ ch ≠ '/')
    (hblen : ∀ b, (c.btoa b).length = (4 * b.length + 2) / 3)
    (hpb : ∀ p s, (c.pbkdf2 p s).length = 64 ∧ ∀ x ∈ c.pbkdf2 p s, x < 256)
    (hhm : ∀ k d, (c.hmacSha256 k d).length = 32 ∧ ∀ x ∈ c.hmacSha256 k d, x < 256)
    (hphB : ∀ x ∈ ph, x < 256) (hkeyB : ∀ x ∈ linkKey, x < 256)
    (hsaltB : ∀ x ∈ salt, x < 256)
    (hph : ph.length = 6) (hkey : linkKey.length = 32) (hsalt : salt.length = 32)
    (hpwd : pwd ≠ []) (halg : alg = 1 ∨ alg = 2) :
    encryptlink c (publicLinkURL c nlf false ph (c.btoa linkKey)) pwd salt
      = encryptlinkWithAlg c 2 (publicLinkURL c nlf false ph (c.btoa linkKey))
          pwd salt ∧
    ∃ e, encryptlinkWithAlg c alg (publicLinkURL c nlf false ph (c.btoa linkKey))
        pwd salt = .ok e ∧
      decryptlink c nlf e pwd junk
        = .ok (publicLinkURL c nlf false ph (c.btoa linkKey)) := by
  refine ⟨rfl, ?_⟩
  obtain ⟨hF1, hF2, _, _⟩ := strstr_canonical_file c nlf ph linkKey hchars
  have hparse := parsepubliclink_canonical_file c nlf ph linkKey hb1 hb2 hchars
    hblen hphB hkeyB hph hkey
  have hLne : publicLinkURL c nlf false ph (c.btoa linkKey) ≠ [] := by
    cases nlf <;> simp [publicLinkURL, MEGAURL]
  have hd32 : ((c.pbkdf2 pwd salt).take 32).length = 32 := by
    rw [List.length_take, (hpb pwd salt).1]
    omega
  have henc32 : (List.zipWith (fun a b => Nat.xor a b)
      ((c.pbkdf2 pwd salt).take 32) linkKey).length = 32 := by
    rw [List.length_zipWith, hd32, hkey]
    omega
  have hcancel : List.zipWith (fun a b => Nat.xor a b)
      (List.zipWith (fun a b => Nat.xor a b) ((c.pbkdf2 pwd salt).take 32) linkKey)
      ((c.pbkdf2 pwd salt).take 32) = linkKey :=
    zipWith_xor_cancel _ _ (by rw [hd32, hkey])
  have hencB : ∀ x ∈ List.zipWith (fun a b => Nat.xor a b)
      ((c.pbkdf2 pwd salt).take 32) linkKey, x < 256 :=
    zipWith_xor_lt_256 _ _
      (fun x hx => (hpb pwd salt).2 x (List.mem_of_mem_take hx)) hkeyB
  simp only [encryptlinkWithAlg, hF1, hF2]
  rw [if_neg (by
    push_neg
    exact ⟨hpwd, hLne⟩)]
  simp only [Option.isSome_none, Bool.or_self, Bool.false_eq_true, if_false,
    hparse, FILENODEKEYLENGTH]
  rcases halg with rfl | rfl
  · rw [if_pos rfl]
    refine ⟨_, rfl, ?_⟩
    have hdec := decryptlink_canonical_blob c nlf 1 ph salt
      (List.zipWith (fun a b => Nat.xor a b) ((c.pbkdf2 pwd salt).take 32) linkKey)
      (c.hmacSha256
        ([1, 1] ++ ph ++ salt
          ++ List.zipWith (fun a b => Nat.xor a b) ((c.pbkdf2 pwd salt).take 32)
            linkKey)
        (((c.pbkdf2 pwd salt).drop 32).take 32))
      junk pwd hb1 hphB hsaltB hencB (fun x hx => (hhm _ _).2 x hx)
      hph hsalt henc32 (hhm _ _).1 (Or.inl rfl) (by rw [if_pos rfl])
      hpwd
    rw [hdec, hcancel]
  · rw [if_neg (by omega), if_pos rfl]
    refine ⟨_, rfl, ?_⟩
    have hdec := decryptlink_canonical_blob c nlf 2 ph salt
      (List.zipWith (fun a b => Nat.xor a b) ((c.pbkdf2 pwd salt).take 32) linkKey)
      (c.hmacSha256 (((c.pbkdf2 pwd salt).drop 32).take 32)
        ([2, 1] ++ ph ++ salt
          ++ List.zipWith (fun a b => Nat.xor a b) ((c.pbkdf2 pwd salt).take 32)
            linkKey))
      junk pwd hb1 hphB hsaltB hencB (fun x hx => (hhm _ _).2 x hx)
      hph hsalt henc32 (hhm _ _).1 (Or.inr rfl) (by rw [if_neg (by omega)])
      hpwd
    rw [hdec, hcancel]

/-- C10: once the password marker is present and the password
non-null, `decryptlink` can never fail with `API_EARGS`: the source's
`isFolder = !(*ptr++)` collapses the type byte to 0 or 1, so the
`isFolder > 1` rejection branch is unreachable. -/
theorem C10_decryptlink_eargs_unreachable (c : LinkCrypto) (nlf : Bool)
    (link pwd : List Char) (junk : List Nat)
    (hpwd : pwd ≠ []) (hP : (strstr ['#', 'P', '!'] link).isSome) :
    decryptlink c nlf link pwd junk ≠ .error API_EARGS := by
  obtain ⟨r, hr⟩ := Option.isSome_iff_exists.mp hP
  have hlink : link ≠ [] := by
    intro h
    rw [h] at hr
    simp [strstr] at hr
  simp only [decryptlink, hr]
  rw [if_neg (by push_neg; exact ⟨hpwd, hlink⟩)]
  repeat' split
  all_goals try (exact fun h => Except.noConfusion h)
  all_goals try
    simp_all only [ne_eq, Except.error.injEq, API_EARGS, API_EINCOMPLETE,
      API_EINTERNAL, API_EKEY]
  all_goals omega

/-- `Char.ofNat` below the surrogate range round-trips through `toNat`. -/
theorem toNat_ofNat_of_lt (n : Nat) (h : n < 55296) : (Char.ofNat n).toNat = n := by
  unfold Char.ofNat
  rw [dif_pos (Or.inl h)]
  unfold Char.ofNatAux
  rfl

/-- `(Char.ofNat m).toNat` is `m` (valid codepoint) or `0` (fallback). -/
theorem ofNat_toNat_cases (m : Nat) :
    (Char.ofNat m).toNat = m ∨ (Char.ofNat m).toNat = 0 := by
  unfold Char.ofNat
  split
  · left
    unfold Char.ofNatAux
    rfl
  · right
    rfl

/-- `concreteLinkCrypto.btoa` output avoids the link separator chars. -/
theorem concrete_hchars : ∀ (b : List Nat) (ch : Char),
    ch ∈ concreteLinkCrypto.btoa b → ch ≠ '#' ∧ ch ≠ '!' ∧ ch ≠ '/' := by
  intro b ch hch
  have htoNat : ch.toNat = 999 ∨ ch.toNat = 0 ∨ 1000 ≤ ch.toNat := by
    simp only [concreteLinkCrypto, List.mem_append, List.mem_map,
      List.mem_replicate] at hch
    rcases hch with ⟨x, _, rfl⟩ | ⟨_, rfl⟩
    · rcases ofNat_toNat_cases (1000 + x) with h | h
      · right; right; omega
      · right; left; exact h
    · left
      exact toNat_ofNat_of_lt 999 (by omega)
  refine ⟨?_, ?_, ?_⟩ <;> (intro heq; subst heq; revert htoNat; decide)

/-- `concreteLinkCrypto.btoa` has the base64 output length. -/
theorem concrete_hblen : ∀ b,
    (concreteLinkCrypto.btoa b).length = (4 * b.length + 2) / 3 := by
  intro b
  simp only [concreteLinkCrypto, List.length_append, List.length_map,
    List.length_replicate]
  omega

/-- The decoder predicate stops exactly at the end of the mapped bytes. -/
theorem concrete_takeWhile : ∀ (b : List Nat) (tail : List Char),
    (∀ x ∈ b, x < 256) →
    (tail = [] ∨ ∃ t, tail = Char.ofNat 999 :: t) →
    (b.map (fun n => Char.ofNat (1000 + n)) ++ tail).takeWhile
        (fun ch => 1000 ≤ ch.toNat)
      = b.map (fun n => Char.ofNat (1000 + n)) := by
  intro b
  induction b with
  | nil =>
    intro tail _ htail
    rcases htail with rfl | ⟨t, rfl⟩
    · rfl
    · simp only [List.map_nil, List.nil_append, List.takeWhile_cons]
      rw [if_neg (by decide)]
  | cons x xs ih =>
    intro tail hb htail
    simp only [List.map_cons, List.cons_append, List.takeWhile_cons]
    rw [if_pos (by
      rw [toNat_ofNat_of_lt (1000 + x) (by
        have := hb x (by simp)
        omega)]
      simp only [decide_eq_true_eq]
      omega)]
    rw [ih tail (fun y hy => hb y (by simp [hy])) htail]

/-- Byte-shifting then decoding recovers the bytes. -/
theorem concrete_map_inv (b : List Nat) (hB : ∀ x ∈ b, x < 256) :
    (b.map (fun n => Char.ofNat (1000 + n))).map (fun ch => ch.toNat - 1000)
      = b := by
  rw [List.map_map]
  have h : ∀ x ∈ b, ((fun ch => Char.toNat ch - 1000) ∘
      fun n => Char.ofNat (1000 + n)) x = id x := by
    intro x hx
    show (Char.ofNat (1000 + x)).toNat - 1000 = x
    rw [toNat_ofNat_of_lt (1000 + x) (by
      have := hB x hx
      omega)]
    omega
  rw [List.map_congr_left h, List.map_id]

/-- `concreteLinkCrypto` decodes its own encodings (byte inputs). -/
theorem concrete_hb1 : ∀ (b : List Nat) (n : Nat), (∀ x ∈ b, x < 256) →
    b.length ≤ n →
    concreteLinkCrypto.atob (concreteLinkCrypto.btoa b) n = b := by
  intro b n hB hn
  show (((b.map (fun n => Char.ofNat (1000 + n))
      ++ List.replicate ((4 * b.length + 2) / 3 - b.length)
        (Char.ofNat 999)).takeWhile (fun ch => 1000 ≤ ch.toNat)).take n).map
      (fun ch => ch.toNat - 1000) = b
  rw [concrete_takeWhile b _ hB (by
    cases hk : (4 * b.length + 2) / 3 - b.length with
    | zero => left; rfl
    | succ m => right; exact ⟨List.replicate m (Char.ofNat 999), rfl⟩)]
  rw [List.take_of_length_le (by simpa using hn)]
  exact concrete_map_inv b hB

/-- `concreteLinkCrypto` decodes a 6-byte encoding with trailing data. -/
theorem concrete_hb2 : ∀ (b : List Nat) (rest : List Char),
    (∀ x ∈ b, x < 256) → b.length = 6 →
    concreteLinkCrypto.atob (concreteLinkCrypto.btoa b ++ rest) 6 = b := by
  intro b rest hB h6
  have hk : (4 * b.length + 2) / 3 - b.length = 2 := by rw [h6]
  show ((((b.map (fun n => Char.ofNat (1000 + n))
      ++ List.replicate ((4 * b.length + 2) / 3 - b.length) (Char.ofNat 999))
      ++ rest).takeWhile (fun ch => 1000 ≤ ch.toNat)).take 6).map
      (fun ch => ch.toNat - 1000) = b
  rw [hk, List.append_assoc,
    show (List.replicate 2 (Char.ofNat 999) ++ rest)
      = Char.ofNat 999 :: (Char.ofNat 999 :: rest) from rfl]
  rw [concrete_takeWhile b _ hB
    (Or.inr ⟨Char.ofNat 999 :: rest, rfl⟩)]
  rw [List.take_of_length_le (by simp [h6])]
  exact concrete_map_inv b hB

theorem C7_password_link_file_roundtrip_witness :
    encryptlink concreteLinkCrypto
        (publicLinkURL concreteLinkCrypto false false (List.replicate 6 1)
          (concreteLinkCrypto.btoa (List.replicate 32 2)))
        ['p'] (List.replicate 32 3)
      = encryptlinkWithAlg concreteLinkCrypto 2
          (publicLinkURL concreteLinkCrypto false false (List.replicate 6 1)
            (concreteLinkCrypto.btoa (List.replicate 32 2)))
          ['p'] (List.replicate 32 3) ∧
    ∃ e, encryptlinkWithAlg concreteLinkCrypto 1
        (publicLinkURL concreteLinkCrypto false false (List.replicate 6 1)
          (concreteLinkCrypto.btoa (List.replicate 32 2)))
        ['p'] (List.replicate 32 3) = .ok e ∧
      decryptlink concreteLinkCrypto false e ['p'] []
        = .ok (publicLinkURL concreteLinkCrypto false false (List.replicate 6 1)
            (concreteLinkCrypto.btoa (List.replicate 32 2))) :=
  C7_password_link_file_roundtrip concreteLinkCrypto false 1
    (List.replicate 6 1) (List.replicate 32 2) (List.replicate 32 3) [] ['p']
    concrete_hb1 concrete_hb2 concrete_hchars concrete_hblen
    (fun p s => ⟨by simp [concreteLinkCrypto], fun x hx => by
      simp only [concreteLinkCrypto, List.mem_replicate] at hx
      omega⟩)
    (fun k d => ⟨by simp [concreteLinkCrypto], fun x hx => by
      simp only [concreteLinkCrypto, List.mem_replicate] at hx
      omega⟩)
    (by decide) (by decide) (by decide)
    (by decide) (by decide) (by decide) (by decide) (Or.inl rfl)

set_option maxRecDepth 10000 in
/-- C7: the round trip is NOT exact for folder links: the decrypted
link carries a key field padded to `FILENODEKEYLENGTH` with 16
uninitialized stack bytes, so it differs from the original link. -/
theorem C7_password_link_folder_counterexample :
    ∃ e l2,
      encryptlink concreteLinkCrypto
          (publicLinkURL concreteLinkCrypto false true (List.replicate 6 1)
            (concreteLinkCrypto.btoa (List.replicate 16 2)))
          ['p'] (List.replicate 32 3) = .ok e ∧
      decryptlink concreteLinkCrypto false e ['p'] (List.replicate 16 7)
        = .ok l2 ∧
      l2 ≠ publicLinkURL concreteLinkCrypto false true (List.replicate 6 1)
            (concreteLinkCrypto.btoa (List.replicate 16 2)) := by
  refine ⟨_, _, rfl, rfl, ?_⟩
  decide

theorem C10_decryptlink_eargs_unreachable_witness :
    (['p'] : List Char) ≠ [] ∧
    (strstr ['#', 'P', '!'] ['#', 'P', '!']).isSome = true ∧
    decryptlink concreteLinkCrypto false ['#', 'P', '!'] ['p'] []
      ≠ .error API_EARGS :=
  ⟨by decide, by decide,
    C10_decryptlink_eargs_unreachable concreteLinkCrypto false
      ['#', 'P', '!'] ['p'] [] (by decide) (by decide)⟩

end Mega
